import Mathlib

/-!
Verification of the concurrent constant-extraction pipeline implemented in
`sys/syz-extract/extract.go` of the syzkaller-win repository.

The Go program is shallowly embedded as follows.

* External collaborators (the `ast`/`compiler` packages and the per-OS
  `Extractor` backend) are modelled as oracle functions supplied in an `Ext`
  record: the composite outcome of `processArch` (parse + `ExtractConsts` +
  `prepareArch`) per architecture, and the backend's `processFile` result per
  file.  The pipeline code itself never inspects their internals.
* Go maps used as sets/tables are modelled by association lists or by their
  characteristic functions; `uint64` constant values are only stored and moved
  around (never computed with), so they are modelled as `Nat`.
* The worker pool and the `jobC` channel are modelled by a small-step
  transition relation `Step` on a global state `St`: a job that is in the
  queue may be dequeued and then executed in the atomic sub-steps that
  correspond to the statements of `worker`; the `done` channels are one-shot
  boolean completion flags (`close` = set the flag, `<-ch` = a step guarded by
  the flag).  This gives a superset of the interleavings of any fixed worker
  pool of size >= 1, so safety properties proved over `Step` hold for the real
  pool.  Every step also appends fine-grained events (field writes, signal
  fires, collector reads) to a ghost trace used to state the
  publish-before-signal discipline.
* `fmt.Printf` diagnostics are modelled as structured `OutLine` values and
  file-system effects (`osutil.WriteFile`, `os.Remove`, `os.RemoveAll`) as
  structured `FsAction` values; serialization of a constant table
  (`compiler.ConstFile.Serialize`, outside this repository's sources) is an
  arbitrary function parameter `ser`.
-/

namespace SyzExtract

/-- Per-file constant-reference info (`compiler.ConstInfo`); the pipeline only
inspects the list of referenced constant names (`file.info.Consts`). -/
structure ConstInfo where
  consts : List String
deriving DecidableEq

/-- Result triple of a per-file extraction, mirroring the Go multi-return
`(map[string]uint64, map[string]bool, error)`: resolved constants, undeclared
names, and the error.  All three are nil-able in Go, hence the `Option`s. -/
abbrev PFRes := Option (List (String × Nat)) × Option (List String) × Option String

/-- Oracle for the external collaborators used by `worker`:
`processArchO a` is the composite outcome of `processArch` for architecture
index `a` (`.ok` carries the per-path `compiler.ConstInfo` map that
`ast.ParseGlob`/`compiler.ExtractConsts` return, `.error` the terminal error
from parsing, const extraction or `extractor.prepareArch`);
`processFileO a info` is the backend's `extractor.processFile` result. -/
structure Ext where
  processArchO : Nat → Except String (String → Option ConstInfo)
  processFileO : Nat → ConstInfo → PFRes

/-- The fields of the Go `File` struct that `processFile` reads: the definition
file name and the attached constant-reference info (nil-able). -/
structure FileIn where
  name : String
  info : Option ConstInfo

/-- Translation of `processFile` (extract.go:298-307): missing info is an
immediate error, info with no referenced constants is a silent no-op success,
and otherwise the backend is invoked. -/
def processFile (ext : Ext) (archIdx : Nat) (os : String) (file : FileIn) : PFRes :=
  let inname := "sys/" ++ os ++ "/" ++ file.name
  match file.info with
  | none => (none, none, some ("const info for input file " ++ inname ++ " is missing"))
  | some info =>
    if info.consts.length = 0 then (none, none, none)
    else ext.processFileO archIdx info

/-- One diagnostic line of the program, modelling the `fmt.Printf` calls of
`main` and `checkUnsupportedCalls` structurally. -/
inductive OutLine where
  | generating (os arch : String)
  | archError (msg : String)
  | fileError (file msg : String)
  | unsupported (file name : String)
deriving DecidableEq

/-- Final observable per-file result fields, as read by
`checkUnsupportedCalls` from the job structs after the run (a never-run file
job has nil maps, i.e. empty lists here). -/
structure FileFinal where
  name : String
  consts : List (String × Nat)
  undeclared : List String
deriving DecidableEq

/-- Characteristic function of the `supported` map built by
`checkUnsupportedCalls` (extract.go:251-257): a name is supported iff some
(arch, file) pair resolved it. -/
def supportedOf (data : List (List FileFinal)) (n : String) : Bool :=
  data.any fun fs => fs.any fun f => f.consts.any fun p => p.1 == n

/-- All `(name, file.name)` bindings written into the `unsupported` map of
`checkUnsupportedCalls` (extract.go:258-260), in the (arch, file) iteration
order of the loop. -/
def undeclPairs (data : List (List FileFinal)) : List (String × String) :=
  data.flatMap fun fs => fs.flatMap fun f => f.undeclared.map fun n => (n, f.name)

/-- Value of the `unsupported` map at a name: the file tag of the last write
wins, as for a Go map assignment `unsupported[name] = f.name`. -/
def unsupportedOf (data : List (List FileFinal)) (n : String) : Option String :=
  (undeclPairs data).foldl (fun acc p => if p.1 == n then some p.2 else acc) none

/-- Translation of `checkUnsupportedCalls` (extract.go:250-273): every name
that is undeclared somewhere (a key of `unsupported`) and supported nowhere is
reported and makes the result `true` (failed).  Go iterates the `unsupported`
map in an unspecified order; the keys are enumerated here in a fixed order,
which only fixes the order of the report lines. -/
def checkUnsupportedCalls (data : List (List FileFinal)) : Bool × List OutLine :=
  let keys := ((undeclPairs data).map Prod.fst).dedup
  let bad := keys.filter fun n => !(supportedOf data n)
  (!bad.isEmpty, bad.map fun n => OutLine.unsupported ((unsupportedOf data n).getD "") n)

/-- A name is undeclared on at least one (architecture, file) pair. -/
def undeclSomewhere (data : List (List FileFinal)) (n : String) : Prop :=
  ∃ fs ∈ data, ∃ f ∈ fs, n ∈ f.undeclared

/-- A name was resolved by at least one (architecture, file) pair. -/
def resolvedSomewhere (data : List (List FileFinal)) (n : String) : Prop :=
  ∃ fs ∈ data, ∃ f ∈ fs, ∃ p ∈ f.consts, p.1 = n

/-- One `AddArch` call made by the collector (extract.go:120): the definition
file name, the architecture name and the resolved/undeclared fields of the
file job. -/
structure AddCall where
  file : String
  arch : String
  consts : Option (List (String × Nat))
  undeclared : Option (List String)
deriving DecidableEq

/-- One step of building the `constFiles` map: `constFiles[f.name]` is created
on first use (`NewConstFile`) and the `AddArch` call is appended to the entry
for `f.name` (extract.go:117-120). -/
def addCallTo (m : List (String × List AddCall)) (call : AddCall) :
    List (String × List AddCall) :=
  if m.any fun p => p.1 == call.file then
    m.map fun p => if p.1 == call.file then (p.1, p.2 ++ [call]) else p
  else m ++ [(call.file, [call])]

/-- The `constFiles` table built by the collector from its sequence of
`AddArch` calls: per definition-file name, the calls made for it in order. -/
def constFilesOf (calls : List AddCall) : List (String × List AddCall) :=
  calls.foldl addCallTo []

/-- File-system effect of the write-back loop of `main`. -/
inductive FsAction where
  | remove (path : String)
  | write (path : String) (data : List Nat)
  | removeAll (path : String)
deriving DecidableEq

/-- Output path of a table: `filepath.Join("sys", OS, file+".const")`
(extract.go:125). -/
def outname (os name : String) : String := "sys/" ++ os ++ "/" ++ name ++ ".const"

/-- Translation of the write-back loop (extract.go:124-134): each accumulated
table is serialized once; empty serialization deletes the previously persisted
table, otherwise the table is written.  `ser` stands for
`compiler.ConstFile.Serialize`, which lives outside this repository. -/
def writeBack (os : String) (ser : List AddCall → List Nat)
    (cfs : List (String × List AddCall)) : List FsAction :=
  cfs.map fun p =>
    let data := ser p.2
    if data.length = 0 then .remove (outname os p.1) else .write (outname os p.1) (data)

/-- Path targeted by a file-system action. -/
def fsPath : FsAction → String
  | .remove p => p
  | .write p _ => p
  | .removeAll p => p

/-- Metadata of a discovered definition file, as returned by
`compiler.FileList`: the `NoExtract` flag and the architecture-support
predicate `SupportsArch`. -/
structure FileMeta where
  noExtract : Bool
  supportsArch : String → Bool

/-- Environment of `createArches`: the flag values, the parsed `allFiles`
metadata (`compiler.FileList`), the registry lookup `targets.Get` reduced to a
known-architecture predicate, and the `ioutil.TempDir` supply, indexed by how
many times it has been called. -/
structure CreateEnv where
  flagBuild : Bool
  flagBuildDir : String
  flagSourceDir : String
  flagIncludes : String
  allFiles : List (String × FileMeta)
  knownArch : String → Bool
  tempDir : Nat → String

/-- The fields of the Go `Arch` struct fixed at creation time (the mutable
result fields and the `done` channel live in the transition-system state). -/
structure ArchCfg where
  targetOS : String
  targetArch : String
  sourceDir : String
  includeDirs : String
  buildDir : String
  build : Bool
  files : List String
deriving DecidableEq

/-- Lexicographic code-point order on character lists (computable model of
the byte-wise string order that `sort.Strings` uses; the pipeline depends only
on the sort being a fixed deterministic total order). -/
def lexLe : List Char → List Char → Bool
  | [], _ => true
  | _ :: _, [] => false
  | a :: as, b :: bs =>
    if a.toNat < b.toNat then true
    else if b.toNat < a.toNat then false
    else lexLe as bs

/-- Model of `sort.Strings` (lexicographic ascending sort). -/
def sortStrings (l : List String) : List String :=
  l.insertionSort fun a b => lexLe a.data b.data = true

/-- The file list computed for one architecture when no explicit list is given
(extract.go:215-222): all discovered files minus `NoExtract` files and files
not supporting the architecture. -/
def archFilesFor (env : CreateEnv) (archStr : String) : List String :=
  (env.allFiles.filter fun p => !(p.2.noExtract || !(p.2.supportsArch archStr))).map Prod.fst

/-- Translation of the loop of `createArches` (extract.go:186-232), with `i`
counting `ioutil.TempDir` calls: per architecture, the build dir is a fresh
temp dir in build mode, else the explicit `-builddir`, else the source dir;
an unknown architecture aborts; the file list is the explicit one if
non-empty, otherwise the filtred discovered list; either way it is sorted. -/
def createArchesGo (env : CreateEnv) (os : String) :
    Nat → List String → List String → Except String (List ArchCfg)
  | _, [], _ => .ok []
  | i, archStr :: rest, files =>
    let buildDir :=
      if env.flagBuild then env.tempDir i
      else if env.flagBuildDir ≠ "" then env.flagBuildDir
      else env.flagSourceDir
    if env.knownArch archStr then
      let archFiles := if files.length = 0 then archFilesFor env archStr else files
      match createArchesGo env os (i + 1) rest files with
      | .error e => .error e
      | .ok others =>
        .ok ({ targetOS := os, targetArch := archStr, sourceDir := env.flagSourceDir,
               includeDirs := env.flagIncludes, buildDir := buildDir,
               build := env.flagBuild, files := sortStrings archFiles } :: others)
    else .error ("unknown arch: " ++ archStr)

/-- `createArches` (extract.go:173-234) after the glob parse and `FileList`
succeeded (both outcomes are part of `env`). -/
def createArches (env : CreateEnv) (os : String) (archArray files : List String) :
    Except String (List ArchCfg) :=
  createArchesGo env os 0 archArray files

/-- Translation of `archList` (extract.go:238-248): an explicit comma-separated
list is returned as-is, otherwise all registered architectures, sorted. -/
def archList (allArches : List String) (arches : String) : List String :=
  if arches ≠ "" then arches.splitOn "," else sortStrings allArches

/-- Program counter of (the worker executing) an architecture job: in the
queue; dequeued; `j.err` written (extract.go:154-155); signalled and fanning
out child file jobs `0..k-1` (success, extract.go:158-163); or signalled and
finished with an error (no fan-out). -/
inductive APC where
  | queued
  | taken
  | errWritten
  | fanout (k : Nat)
  | failedDone
deriving DecidableEq

/-- The worker has executed the write of `j.err` (extract.go:155). -/
def APC.pastWrite : APC → Bool
  | .queued => false
  | .taken => false
  | _ => true

/-- The worker has executed `close(j.done)` (extract.go:158). -/
def APC.pastClose : APC → Bool
  | .fanout _ => true
  | .failedDone => true
  | _ => false

/-- Program counter of a file job: never enqueued; enqueued by the parent's
worker (extract.go:160-163); dequeued; results written (extract.go:167);
signalled (extract.go:168). -/
inductive FPC where
  | notQueued
  | queued
  | taken
  | written
  | closedDone
deriving DecidableEq

/-- The file job has been made schedulable (`jobC <- f`). -/
def FPC.scheduled : FPC → Bool
  | .notQueued => false
  | _ => true

/-- The worker has executed the write of `j.consts, j.undeclared, j.err`. -/
def FPC.pastWrite : FPC → Bool
  | .written => true
  | .closedDone => true
  | _ => false

/-- The worker has executed `close(j.done)`. -/
def FPC.pastClose : FPC → Bool
  | .closedDone => true
  | _ => false

/-- Mutable state of one `Arch` job: worker position, the `err` field (Go
`error`, nil-able) and the one-shot `done` flag (the closed-ness of the `done`
channel). -/
structure ArchSt where
  pc : APC
  err : Option String
  done : Bool
deriving DecidableEq

/-- Mutable state of one `File` job: worker position, the `info` field
written by the parent's worker (nil-able), the result fields
`(consts, undeclared, err)` written in one statement (extract.go:167), and the
one-shot `done` flag. -/
structure FileSt where
  pc : FPC
  info : Option ConstInfo
  res : PFRes
  done : Bool
deriving DecidableEq

/-- Job state at creation (extract.go:206-229): queued arch job, no error, open
channel. -/
def initArchSt : ArchSt := ⟨.queued, none, false⟩

/-- File job state at creation: not yet schedulable, nil fields, open
channel. -/
def initFileSt : FileSt := ⟨.notQueued, none, (none, none, none), false⟩

/-- Collector position in the drain loop of `main` (extract.go:101-122):
about to wait for architecture `a` (`a` = number of arches means fully
drained), or about to wait for file `f` of architecture `a`. -/
inductive CPC where
  | atArch (a : Nat)
  | atFile (a f : Nat)
deriving DecidableEq

/-- Ghost events recorded by the transition system: result-field writes,
completion-signal fires (`close`), and collector reads of result fields. -/
inductive Ev where
  | writeArchErr (a : Nat)
  | signalArch (a : Nat)
  | writeFileInfo (a f : Nat)
  | enqueueFile (a f : Nat)
  | writeFileRes (a f : Nat)
  | signalFile (a f : Nat)
  | readArchErr (a : Nat)
  | readFileRes (a f : Nat)
deriving DecidableEq

/-- Static run configuration: the target OS, the arch jobs created by
`createArches` (in request order, file lists sorted), and the external
oracle. -/
structure Cfg where
  os : String
  arches : List ArchCfg
  ext : Ext

/-- Placeholder arch used for out-of-range lookups. -/
def dummyArch : ArchCfg := ⟨"", "", "", "", "", false, []⟩

/-- The arch config at request index `a`. -/
def archAt (c : Cfg) (a : Nat) : ArchCfg := c.arches.getD a dummyArch

/-- The architecture name at request index `a` (`arch.target.Arch`). -/
def archNameAt (c : Cfg) (a : Nat) : String := (archAt c a).targetArch

/-- Number of file jobs of architecture `a`. -/
def filesLen (c : Cfg) (a : Nat) : Nat := (archAt c a).files.length

/-- Name of file job `f` of architecture `a`. -/
def fileNameAt (c : Cfg) (a f : Nat) : String := (archAt c a).files.getD f ""

/-- The error that `processArch` returns for architecture `a` (oracle). -/
def archErrP (c : Cfg) (a : Nat) : Option String :=
  match c.ext.processArchO a with
  | .error e => some e
  | .ok _ => none

/-- The info attached to file job `(a, f)` by the parent's worker:
`infos[filepath.Join("sys", j.target.OS, f.name)]` (extract.go:161), a map
lookup that may miss (nil). -/
def fileInfoP (c : Cfg) (a f : Nat) : Option ConstInfo :=
  match c.ext.processArchO a with
  | .error _ => none
  | .ok m => m ("sys/" ++ c.os ++ "/" ++ fileNameAt c a f)

/-- The result triple that the worker executing file job `(a, f)` writes
(extract.go:167), determined by the oracle and the attached info. -/
def fileResP (c : Cfg) (a f : Nat) : PFRes :=
  processFile c.ext a c.os ⟨fileNameAt c a f, fileInfoP c a f⟩

/-- Global state of the pipeline: per-job mutable state, the collector's
position, the collector-owned accumulators (`constFiles` as the ordered list
of `AddArch` calls, the `failed` flag, the printed lines), and the ghost event
trace. -/
structure St where
  archs : Nat → ArchSt
  files : Nat → Nat → FileSt
  cpc : CPC
  calls : List AddCall
  failed : Bool
  out : List OutLine
  tr : List Ev

/-- Pointwise update of a one-index family. -/
def upd1 {α : Type} (g : Nat → α) (a : Nat) (v : α) : Nat → α :=
  fun x => if x = a then v else g x

/-- Pointwise update of a two-index family. -/
def upd2 {α : Type} (g : Nat → Nat → α) (a f : Nat) (v : α) : Nat → Nat → α :=
  fun x => if x = a then upd1 (g x) f v else g x

@[simp] theorem upd1_self {α : Type} (g : Nat → α) (a : Nat) (v : α) : upd1 g a v a = v := by
  simp [upd1]

theorem upd1_ne {α : Type} (g : Nat → α) (a : Nat) (v : α) {x : Nat} (h : x ≠ a) :
    upd1 g a v x = g x := by
  simp [upd1, h]

@[simp] theorem upd2_self {α : Type} (g : Nat → Nat → α) (a f : Nat) (v : α) :
    upd2 g a f v a f = v := by
  simp [upd2]

theorem upd2_ne {α : Type} (g : Nat → Nat → α) (a f : Nat) (v : α) {x y : Nat}
    (h : ¬(x = a ∧ y = f)) : upd2 g a f v x y = g x y := by
  by_cases hx : x = a
  · subst hx
    have hy : y ≠ f := fun hy => h ⟨rfl, hy⟩
    simp [upd2, upd1, hy]
  · simp [upd2, hx]

/-- Initial state: all arch jobs queued (extract.go:89-91), all file jobs
created but not schedulable, collector at the first architecture, empty
accumulators. -/
def initSt : St :=
  ⟨fun _ => initArchSt, fun _ _ => initFileSt, .atArch 0, [], false, [], []⟩

/-- Small-step transition relation of the pipeline.  Worker steps follow the
statements of `worker` (extract.go:149-171) at the granularity of one field
write / one channel operation per step; collector steps follow the drain loop
of `main` (extract.go:101-122), each blocking receive fused with the following
reads of the already-published fields of that one job.  Any number of jobs may
be in flight, which over-approximates every fixed-size worker pool. -/
inductive Step (c : Cfg) : St → St → Prop where
  | dequeueArch {s : St} (a : Nat) (ha : a < c.arches.length)
      (hpc : (s.archs a).pc = .queued) :
      Step c s { s with archs := upd1 s.archs a { s.archs a with pc := .taken } }
  | writeArch {s : St} (a : Nat) (hpc : (s.archs a).pc = .taken) :
      Step c s { s with
        archs := upd1 s.archs a { s.archs a with pc := .errWritten, err := archErrP c a },
        tr := s.tr ++ [.writeArchErr a] }
  | closeArch {s : St} (a : Nat) (hpc : (s.archs a).pc = .errWritten) :
      Step c s { s with
        archs := upd1 s.archs a { s.archs a with
          pc := if (s.archs a).err = none then .fanout 0 else .failedDone,
          done := true },
        tr := s.tr ++ [.signalArch a] }
  | fanout {s : St} (a k : Nat) (hpc : (s.archs a).pc = .fanout k)
      (hk : k < filesLen c a) :
      Step c s { s with
        archs := upd1 s.archs a { s.archs a with pc := .fanout (k + 1) },
        files := upd2 s.files a k { s.files a k with pc := .queued, info := fileInfoP c a k },
        tr := s.tr ++ [.writeFileInfo a k, .enqueueFile a k] }
  | dequeueFile {s : St} (a f : Nat) (hpc : (s.files a f).pc = .queued) :
      Step c s { s with files := upd2 s.files a f { s.files a f with pc := .taken } }
  | writeFile {s : St} (a f : Nat) (hpc : (s.files a f).pc = .taken) :
      Step c s { s with
        files := upd2 s.files a f { s.files a f with
          pc := .written,
          res := processFile c.ext a c.os ⟨fileNameAt c a f, (s.files a f).info⟩ },
        tr := s.tr ++ [.writeFileRes a f] }
  | closeFile {s : St} (a f : Nat) (hpc : (s.files a f).pc = .written) :
      Step c s { s with
        files := upd2 s.files a f { s.files a f with pc := .closedDone, done := true },
        tr := s.tr ++ [.signalFile a f] }
  | collectArchErr {s : St} (a : Nat) (e : String) (hpc : s.cpc = .atArch a)
      (ha : a < c.arches.length) (hdone : (s.archs a).done = true)
      (herr : (s.archs a).err = some e) :
      Step c s { s with
        cpc := .atArch (a + 1), failed := true,
        out := s.out ++ [.generating c.os (archNameAt c a), .archError e],
        tr := s.tr ++ [.readArchErr a] }
  | collectArchOk {s : St} (a : Nat) (hpc : s.cpc = .atArch a)
      (ha : a < c.arches.length) (hdone : (s.archs a).done = true)
      (herr : (s.archs a).err = none) :
      Step c s { s with
        cpc := .atFile a 0,
        out := s.out ++ [.generating c.os (archNameAt c a)],
        tr := s.tr ++ [.readArchErr a] }
  | collectFileErr {s : St} (a f : Nat) (e : String) (hpc : s.cpc = .atFile a f)
      (hf : f < filesLen c a) (hdone : (s.files a f).done = true)
      (herr : (s.files a f).res.2.2 = some e) :
      Step c s { s with
        cpc := .atFile a (f + 1), failed := true,
        out := s.out ++ [.fileError (fileNameAt c a f) e],
        tr := s.tr ++ [.readFileRes a f] }
  | collectFileOk {s : St} (a f : Nat) (hpc : s.cpc = .atFile a f)
      (hf : f < filesLen c a) (hdone : (s.files a f).done = true)
      (herr : (s.files a f).res.2.2 = none) :
      Step c s { s with
        cpc := .atFile a (f + 1),
        calls := s.calls ++ [⟨fileNameAt c a f, archNameAt c a,
          (s.files a f).res.1, (s.files a f).res.2.1⟩],
        tr := s.tr ++ [.readFileRes a f] }
  | collectFilesDone {s : St} (a : Nat) (hpc : s.cpc = .atFile a (filesLen c a)) :
      Step c s { s with cpc := .atArch (a + 1) }

/-- Reachability from the initial state. -/
inductive Reach (c : Cfg) : St → Prop where
  | init : Reach c initSt
  | step {s s' : St} : Reach c s → Step c s s' → Reach c s'

/-- The collector has drained every architecture (and so every scheduled file
job). -/
def Drained (c : Cfg) (s : St) : Prop := s.cpc = .atArch c.arches.length

/-- Collector-owned accumulators: the ordered `AddArch` call list, the printed
lines and the `failed` flag. -/
structure Acc where
  calls : List AddCall
  out : List OutLine
  failed : Bool
deriving DecidableEq

/-- The accumulators of a state. -/
def accOf (s : St) : Acc := ⟨s.calls, s.out, s.failed⟩

/-- Reference effect of the collector's inner-loop body for file `(a, f)`
(extract.go:110-121), on oracle-determined results. -/
def fileApply (c : Cfg) (a f : Nat) (acc : Acc) : Acc :=
  match fileResP c a f with
  | (_, _, some e) =>
    { acc with out := acc.out ++ [.fileError (fileNameAt c a f) e], failed := true }
  | (cs, ud, none) =>
    { acc with calls := acc.calls ++ [⟨fileNameAt c a f, archNameAt c a, cs, ud⟩] }

/-- Reference effect of draining files `0..n-1` of architecture `a`. -/
def accFiles (c : Cfg) (a : Nat) : Nat → Acc → Acc
  | 0, acc => acc
  | n + 1, acc => fileApply c a n (accFiles c a n acc)

/-- Reference effect of the collector's outer-loop body for architecture `a`
(extract.go:101-122). -/
def archApply (c : Cfg) (a : Nat) (acc : Acc) : Acc :=
  let acc1 : Acc := { acc with out := acc.out ++ [.generating c.os (archNameAt c a)] }
  match archErrP c a with
  | some e => { acc1 with out := acc1.out ++ [.archError e], failed := true }
  | none => accFiles c a (filesLen c a) acc1

/-- Reference accumulators after draining architectures `0..n-1`. -/
def archesUpTo (c : Cfg) : Nat → Acc
  | 0 => ⟨[], [], false⟩
  | n + 1 => archApply c n (archesUpTo c n)

/-- Reference accumulators at a given collector position. -/
def collectAt (c : Cfg) : CPC → Acc
  | .atArch a => archesUpTo c a
  | .atFile a f =>
    accFiles c a f
      { archesUpTo c a with
        out := (archesUpTo c a).out ++ [.generating c.os (archNameAt c a)] }

/-- Reference accumulators of a complete drain: a pure function of the
configuration alone. -/
def collectP (c : Cfg) : Acc := archesUpTo c c.arches.length

/-- Whether architecture `a` fails, or (when it succeeds) any of its file jobs
fails; file jobs of a failed architecture never run and cannot fail. -/
def archSegFailed (c : Cfg) (a : Nat) : Bool :=
  match archErrP c a with
  | some _ => true
  | none => (List.range (filesLen c a)).any fun f => ((fileResP c a f).2.2).isSome

/-- Whether any architecture-phase or file-phase job error occurs in the run
of configuration `c`. -/
def anyJobErr (c : Cfg) : Bool := (List.range c.arches.length).any (archSegFailed c)

/-- Per-file final fields as `checkUnsupportedCalls` observes them in the job
structs after the drain (nil maps of never-run jobs read as empty). -/
def finalData (c : Cfg) (s : St) : List (List FileFinal) :=
  (List.range c.arches.length).map fun a =>
    (List.range (filesLen c a)).map fun f =>
      ⟨fileNameAt c a f, ((s.files a f).res.1).getD [], ((s.files a f).res.2.1).getD []⟩

/-- Observable outcome of the tail of `main` after the drain loop
(extract.go:124-146): file-system actions (table write-back, then build-dir
cleanup), printed lines, and whether the process exits non-zero. -/
structure RunEnd where
  fsActions : List FsAction
  out : List OutLine
  exitFailed : Bool
deriving DecidableEq

/-- Translation of the tail of `main` (extract.go:124-146): write back every
accumulated table; run `checkUnsupportedCalls` only if nothing failed and no
explicit `-arch` list was given; remove the build dirs of build-mode arches;
exit non-zero iff failed. -/
def mainTail (c : Cfg) (flagArch : String) (ser : List AddCall → List Nat) (s : St) :
    RunEnd :=
  let wb := writeBack c.os ser (constFilesOf s.calls)
  let chk := checkUnsupportedCalls (finalData c s)
  let failed2 := if !s.failed && (flagArch == "") then chk.1 else s.failed
  let chkOut := if !s.failed && (flagArch == "") then chk.2 else []
  let cleanup := (c.arches.filter (·.build)).map fun a => FsAction.removeAll a.buildDir
  ⟨wb ++ cleanup, s.out ++ chkOut, failed2⟩

/-- Number of occurrences of `x` in `l`. -/
def cnt {α : Type} [DecidableEq α] (x : α) (l : List α) : Nat :=
  (l.filter fun y => y = x).length

theorem cnt_nil {α : Type} [DecidableEq α] (x : α) : cnt x ([] : List α) = 0 := rfl

theorem cnt_append {α : Type} [DecidableEq α] (x : α) (l m : List α) :
    cnt x (l ++ m) = cnt x l + cnt x m := by
  simp [cnt, List.filter_append]

theorem cnt_single_self {α : Type} [DecidableEq α] (x : α) : cnt x [x] = 1 := by
  simp [cnt]

theorem cnt_single_ne {α : Type} [DecidableEq α] {x y : α} (h : y ≠ x) : cnt x [y] = 0 := by
  simp [cnt, h]

theorem cnt_eq_zero_iff {α : Type} [DecidableEq α] {x : α} {l : List α} :
    cnt x l = 0 ↔ x ∉ l := by
  simp only [cnt, List.length_eq_zero, List.filter_eq_nil_iff, decide_eq_true_eq]
  constructor
  · intro h hx
    exact h x hx rfl
  · intro h y hy hxy
    exact h (hxy ▸ hy)

theorem mem_of_cnt_one {α : Type} [DecidableEq α] {x : α} {l : List α}
    (h : cnt x l = 1) : x ∈ l := by
  by_contra hx
  rw [← cnt_eq_zero_iff] at hx
  omega

/-- Validity of appending event `e` after the event prefix `pre`: a result
field is never written after the owning job's signal has fired; a signal fires
at most once and only after all the job's result fields are written (for a
file job: its results and the info attached by the parent); a file job is
enqueued only after its info is attached; the collector reads a job's fields
only after the job's signal has fired. -/
def evOK (pre : List Ev) : Ev → Prop
  | .writeArchErr a => Ev.signalArch a ∉ pre
  | .signalArch a => Ev.signalArch a ∉ pre ∧ Ev.writeArchErr a ∈ pre
  | .writeFileInfo a f => Ev.signalFile a f ∉ pre
  | .enqueueFile a f => Ev.writeFileInfo a f ∈ pre
  | .writeFileRes a f => Ev.signalFile a f ∉ pre
  | .signalFile a f =>
    Ev.signalFile a f ∉ pre ∧ Ev.writeFileRes a f ∈ pre ∧ Ev.writeFileInfo a f ∈ pre
  | .readArchErr a => Ev.signalArch a ∈ pre
  | .readFileRes a f => Ev.signalFile a f ∈ pre

/-- Every event of the list is valid with respect to the events before it
(the list extends the prefix `pre`). -/
inductive GoodFrom : List Ev → List Ev → Prop where
  | nil (pre : List Ev) : GoodFrom pre []
  | cons {pre : List Ev} {e : Ev} {rest : List Ev} :
      evOK pre e → GoodFrom (pre ++ [e]) rest → GoodFrom pre (e :: rest)

theorem goodFrom_append_one {pre tr : List Ev} {e : Ev}
    (h : GoodFrom pre tr) (he : evOK (pre ++ tr) e) : GoodFrom pre (tr ++ [e]) := by
  induction h with
  | nil pre0 =>
    exact GoodFrom.cons (by simpa using he) (GoodFrom.nil _)
  | cons hok _ ih =>
    refine GoodFrom.cons hok (ih ?_)
    simpa [List.append_assoc] using he

theorem goodFrom_splits {pre tr : List Ev} (h : GoodFrom pre tr) :
    ∀ l₁ e l₂, tr = l₁ ++ e :: l₂ → evOK (pre ++ l₁) e := by
  induction h with
  | nil pre0 =>
    intro l₁ e l₂ hsplit
    exact absurd hsplit (by simp)
  | cons hok _ ih =>
    intro l₁ e l₂ hsplit
    cases l₁ with
    | nil =>
      simp only [List.nil_append] at hsplit ⊢
      cases hsplit
      simpa using hok
    | cons x xs =>
      simp only [List.cons_append, List.cons.injEq] at hsplit
      obtain ⟨rfl, hrest⟩ := hsplit
      have := ih xs e l₂ hrest
      simpa [List.append_assoc] using this

/-- Inductive invariant on the state of one architecture job: the `done` flag
mirrors whether `close` was executed, and the `err` field holds `nil` until
written and the oracle value afterwards; fan-out happens only on success and
stays within bounds. -/
def archInv (c : Cfg) (a : Nat) (t : ArchSt) : Prop :=
  t.done = t.pc.pastClose ∧
  (t.pc = .queued → t.err = none) ∧
  (t.pc = .taken → t.err = none) ∧
  (t.pc = .errWritten → t.err = archErrP c a) ∧
  (∀ k, t.pc = .fanout k → t.err = none ∧ archErrP c a = none ∧ k ≤ filesLen c a) ∧
  (t.pc = .failedDone → t.err = archErrP c a ∧ archErrP c a ≠ none)

/-- Inductive invariant on the state of one file job: untouched until
scheduled, its `info` field holds the oracle lookup once attached, and its
result fields hold the oracle-determined triple once written. -/
def fileInv (c : Cfg) (a f : Nat) (t : FileSt) : Prop :=
  t.done = t.pc.pastClose ∧
  (t.pc = .notQueued → t = initFileSt) ∧
  (t.pc = .queued ∨ t.pc = .taken → t.info = fileInfoP c a f ∧ t.res = (none, none, none)) ∧
  (t.pc = .written ∨ t.pc = .closedDone →
    t.info = fileInfoP c a f ∧ t.res = fileResP c a f)

/-- The global inductive invariant of the pipeline. -/
structure Inv (c : Cfg) (s : St) : Prop where
  archI : ∀ a, archInv c a (s.archs a)
  fileI : ∀ a f, fileInv c a f (s.files a f)
  sched : ∀ a f, (s.files a f).pc ≠ .notQueued →
    f < filesLen c a ∧ ∃ k, (s.archs a).pc = .fanout k ∧ f < k
  cpcA : ∀ a, s.cpc = .atArch a → a ≤ c.arches.length
  cpcF : ∀ a f, s.cpc = .atFile a f →
    a < c.arches.length ∧ f ≤ filesLen c a ∧ archErrP c a = none ∧ (s.archs a).done = true
  accI : accOf s = collectAt c s.cpc
  mW1 : ∀ a, (Ev.writeArchErr a ∈ s.tr) ↔ (s.archs a).pc.pastWrite = true
  mS1 : ∀ a, (Ev.signalArch a ∈ s.tr) ↔ (s.archs a).done = true
  mIn : ∀ a f, (Ev.writeFileInfo a f ∈ s.tr) ↔ (s.files a f).pc.scheduled = true
  mEn : ∀ a f, (Ev.enqueueFile a f ∈ s.tr) ↔ (s.files a f).pc.scheduled = true
  mW2 : ∀ a f, (Ev.writeFileRes a f ∈ s.tr) ↔ (s.files a f).pc.pastWrite = true
  mS2 : ∀ a f, (Ev.signalFile a f ∈ s.tr) ↔ (s.files a f).done = true
  goodI : GoodFrom [] s.tr

theorem archErr_of_done {c : Cfg} {a : Nat} {t : ArchSt}
    (h : archInv c a t) (hd : t.done = true) : t.err = archErrP c a := by
  obtain ⟨h1, h2, h3, h4, h5, h6⟩ := h
  cases hpc : t.pc with
  | queued => rw [hpc] at h1; rw [hd] at h1; exact absurd h1.symm (by simp [APC.pastClose])
  | taken => rw [hpc] at h1; rw [hd] at h1; exact absurd h1.symm (by simp [APC.pastClose])
  | errWritten => rw [hpc] at h1; rw [hd] at h1; exact absurd h1.symm (by simp [APC.pastClose])
  | fanout k =>
    obtain ⟨he, ha, _⟩ := h5 k hpc
    rw [he, ha]
  | failedDone => exact (h6 hpc).1

theorem archPastClose_of_done {c : Cfg} {a : Nat} {t : ArchSt}
    (h : archInv c a t) (hd : t.done = true) : t.pc.pastClose = true := by
  rw [← h.1, hd]

theorem fileState_of_done {c : Cfg} {a f : Nat} {t : FileSt}
    (h : fileInv c a f t) (hd : t.done = true) :
    t.pc = .closedDone ∧ t.res = fileResP c a f := by
  obtain ⟨h1, h2, h3, h4⟩ := h
  cases hpc : t.pc with
  | closedDone => exact ⟨rfl, (h4 (Or.inr hpc)).2⟩
  | notQueued => rw [hpc] at h1; rw [hd] at h1; exact absurd h1.symm (by simp [FPC.pastClose])
  | queued => rw [hpc] at h1; rw [hd] at h1; exact absurd h1.symm (by simp [FPC.pastClose])
  | taken => rw [hpc] at h1; rw [hd] at h1; exact absurd h1.symm (by simp [FPC.pastClose])
  | written => rw [hpc] at h1; rw [hd] at h1; exact absurd h1.symm (by simp [FPC.pastClose])

theorem inv_init (c : Cfg) : Inv c initSt := by
  refine ⟨?_, ?_, ?_, ?_, ?_, ?_, ?_, ?_, ?_, ?_, ?_, ?_, ?_⟩
  · intro a
    exact ⟨rfl, fun _ => rfl, by simp [initSt, initArchSt], by simp [initSt, initArchSt],
      by simp [initSt, initArchSt], by simp [initSt, initArchSt]⟩
  · intro a f
    exact ⟨rfl, fun _ => rfl, by simp [initSt, initFileSt], by simp [initSt, initFileSt]⟩
  · intro a f h
    exact absurd rfl h
  · intro a h
    have h0 : (0 : Nat) = a := by simpa [initSt] using h
    omega
  · intro a f h
    exact absurd h (by simp [initSt])
  · rfl
  · intro a; simp [initSt, initArchSt, APC.pastWrite]
  · intro a; simp [initSt, initArchSt]
  · intro a f; simp [initSt, initFileSt, FPC.scheduled]
  · intro a f; simp [initSt, initFileSt, FPC.scheduled]
  · intro a f; simp [initSt, initFileSt, FPC.pastWrite]
  · intro a f; simp [initSt, initFileSt]
  · exact GoodFrom.nil []

theorem mem_append_one_iff {α : Type} {e ev : α} {tr : List α} (hne : e ≠ ev) :
    (e ∈ tr ++ [ev]) ↔ e ∈ tr := by
  simp [hne]

theorem mem_append_two_iff {α : Type} {e e1 e2 : α} {tr : List α}
    (h1 : e ≠ e1) (h2 : e ≠ e2) : (e ∈ tr ++ [e1, e2]) ↔ e ∈ tr := by
  simp [h1, h2]

theorem inv_dequeueArch {c : Cfg} {s : St} (hi : Inv c s) (a : Nat)
    (hpc : (s.archs a).pc = .queued) :
    Inv c { s with archs := upd1 s.archs a { s.archs a with pc := .taken } } := by
  have herr : (s.archs a).err = none := (hi.archI a).2.1 hpc
  have hdone : (s.archs a).done = false := by
    have h1 := (hi.archI a).1
    rw [hpc] at h1
    simpa [APC.pastClose] using h1
  refine ⟨?_, hi.fileI, ?_, hi.cpcA, ?_, hi.accI, ?_, ?_, hi.mIn, hi.mEn, hi.mW2, hi.mS2,
    hi.goodI⟩ <;> dsimp only
  · intro x
    by_cases hx : x = a
    · subst hx
      rw [upd1_self]
      refine ⟨by simpa [APC.pastClose] using hdone, ?_, ?_, ?_, ?_, ?_⟩
      · intro h; simp at h
      · intro _; exact herr
      · intro h; simp at h
      · intro k h; simp at h
      · intro h; simp at h
    · rw [upd1_ne _ _ _ hx]; exact hi.archI x
  · intro x y h
    obtain ⟨hy, k, hk, hlt⟩ := hi.sched x y h
    by_cases hx : x = a
    · subst hx; rw [hpc] at hk; simp at hk
    · exact ⟨hy, k, by rw [upd1_ne _ _ _ hx]; exact hk, hlt⟩
  · intro x f h
    obtain ⟨h1, h2, h3, h4⟩ := hi.cpcF x f h
    by_cases hx : x = a
    · subst hx; rw [hdone] at h4; simp at h4
    · exact ⟨h1, h2, h3, by rw [upd1_ne _ _ _ hx]; exact h4⟩
  · intro x
    by_cases hx : x = a
    · subst hx
      have h0 := hi.mW1 x
      rw [hpc] at h0
      rw [upd1_self]
      simpa [APC.pastWrite] using h0
    · rw [upd1_ne _ _ _ hx]; exact hi.mW1 x
  · intro x
    by_cases hx : x = a
    · subst hx; rw [upd1_self]; exact hi.mS1 x
    · rw [upd1_ne _ _ _ hx]; exact hi.mS1 x

theorem inv_writeArch {c : Cfg} {s : St} (hi : Inv c s) (a : Nat)
    (hpc : (s.archs a).pc = .taken) :
    Inv c { s with
      archs := upd1 s.archs a { s.archs a with pc := .errWritten, err := archErrP c a },
      tr := s.tr ++ [.writeArchErr a] } := by
  have hdone : (s.archs a).done = false := by
    have h1 := (hi.archI a).1
    rw [hpc] at h1
    simpa [APC.pastClose] using h1
  refine ⟨?_, hi.fileI, ?_, hi.cpcA, ?_, hi.accI, ?_, ?_, ?_, ?_, ?_, ?_, ?_⟩ <;> dsimp only
  · intro x
    by_cases hx : x = a
    · subst hx
      rw [upd1_self]
      refine ⟨by simpa [APC.pastClose] using hdone, ?_, ?_, ?_, ?_, ?_⟩
      · intro h; simp at h
      · intro h; simp at h
      · intro _; rfl
      · intro k h; simp at h
      · intro h; simp at h
    · rw [upd1_ne _ _ _ hx]; exact hi.archI x
  · intro x y h
    obtain ⟨hy, k, hk, hlt⟩ := hi.sched x y h
    by_cases hx : x = a
    · subst hx; rw [hpc] at hk; simp at hk
    · exact ⟨hy, k, by rw [upd1_ne _ _ _ hx]; exact hk, hlt⟩
  · intro x f h
    obtain ⟨h1, h2, h3, h4⟩ := hi.cpcF x f h
    by_cases hx : x = a
    · subst hx; rw [hdone] at h4; simp at h4
    · exact ⟨h1, h2, h3, by rw [upd1_ne _ _ _ hx]; exact h4⟩
  · intro x
    by_cases hx : x = a
    · subst hx
      rw [upd1_self]
      simp [APC.pastWrite]
    · rw [mem_append_one_iff (by simp [hx]), upd1_ne _ _ _ hx]
      exact hi.mW1 x
  · intro x
    rw [mem_append_one_iff (by simp)]
    by_cases hx : x = a
    · subst hx; rw [upd1_self]; exact hi.mS1 x
    · rw [upd1_ne _ _ _ hx]; exact hi.mS1 x
  · intro x y; rw [mem_append_one_iff (by simp)]; exact hi.mIn x y
  · intro x y; rw [mem_append_one_iff (by simp)]; exact hi.mEn x y
  · intro x y; rw [mem_append_one_iff (by simp)]; exact hi.mW2 x y
  · intro x y; rw [mem_append_one_iff (by simp)]; exact hi.mS2 x y
  · refine goodFrom_append_one hi.goodI ?_
    simp only [evOK, List.nil_append]
    intro hmem
    have h2 := (hi.mS1 a).mp hmem
    rw [hdone] at h2
    simp at h2

theorem inv_closeArch {c : Cfg} {s : St} (hi : Inv c s) (a : Nat)
    (hpc : (s.archs a).pc = .errWritten) :
    Inv c { s with
      archs := upd1 s.archs a { s.archs a with
        pc := if (s.archs a).err = none then .fanout 0 else .failedDone,
        done := true },
      tr := s.tr ++ [.signalArch a] } := by
  obtain ⟨ha1, ha2, ha3, ha4, ha5, ha6⟩ := hi.archI a
  have herr : (s.archs a).err = archErrP c a := ha4 hpc
  have hdone : (s.archs a).done = false := by
    rw [hpc] at ha1
    simpa [APC.pastClose] using ha1
  have hW : Ev.writeArchErr a ∈ s.tr := by
    rw [hi.mW1 a, hpc]; rfl
  refine ⟨?_, hi.fileI, ?_, hi.cpcA, ?_, hi.accI, ?_, ?_, ?_, ?_, ?_, ?_, ?_⟩ <;> dsimp only
  · intro x
    by_cases hx : x = a
    · subst hx
      rw [upd1_self]
      by_cases hc : (s.archs x).err = none
      · simp only [hc, if_pos]
        refine ⟨by simp [APC.pastClose], ?_, ?_, ?_, ?_, ?_⟩
        · intro h; simp at h
        · intro h; simp at h
        · intro h; simp at h
        · intro k h
          have hk : k = 0 := by
            have := h.symm
            simp at this
            omega
          subst hk
          exact ⟨rfl, by rw [← herr]; exact hc, Nat.zero_le _⟩
        · intro h; simp at h
      · simp only [hc, if_neg, not_false_iff]
        refine ⟨by simp [APC.pastClose], ?_, ?_, ?_, ?_, ?_⟩
        · intro h; simp at h
        · intro h; simp at h
        · intro h; simp at h
        · intro k h; simp at h
        · intro _; exact ⟨herr, by rw [← herr]; exact hc⟩
    · rw [upd1_ne _ _ _ hx]; exact hi.archI x
  · intro x y h
    obtain ⟨hy, k, hk, hlt⟩ := hi.sched x y h
    by_cases hx : x = a
    · subst hx; rw [hpc] at hk; simp at hk
    · exact ⟨hy, k, by rw [upd1_ne _ _ _ hx]; exact hk, hlt⟩
  · intro x f h
    obtain ⟨h1, h2, h3, h4⟩ := hi.cpcF x f h
    by_cases hx : x = a
    · subst hx; rw [hdone] at h4; simp at h4
    · exact ⟨h1, h2, h3, by rw [upd1_ne _ _ _ hx]; exact h4⟩
  · intro x
    rw [mem_append_one_iff (by simp)]
    by_cases hx : x = a
    · subst hx
      rw [upd1_self]
      have h0 := hi.mW1 x
      rw [hpc] at h0
      by_cases hc : (s.archs x).err = none <;>
        simpa [hc, APC.pastWrite] using h0
    · rw [upd1_ne _ _ _ hx]; exact hi.mW1 x
  · intro x
    by_cases hx : x = a
    · subst hx
      rw [upd1_self]
      simp
    · rw [mem_append_one_iff (by simp [hx]), upd1_ne _ _ _ hx]
      exact hi.mS1 x
  · intro x y; rw [mem_append_one_iff (by simp)]; exact hi.mIn x y
  · intro x y; rw [mem_append_one_iff (by simp)]; exact hi.mEn x y
  · intro x y; rw [mem_append_one_iff (by simp)]; exact hi.mW2 x y
  · intro x y; rw [mem_append_one_iff (by simp)]; exact hi.mS2 x y
  · refine goodFrom_append_one hi.goodI ?_
    simp only [evOK, List.nil_append]
    refine ⟨?_, hW⟩
    intro hmem
    have h2 := (hi.mS1 a).mp hmem
    rw [hdone] at h2
    simp at h2

theorem inv_fanout {c : Cfg} {s : St} (hi : Inv c s) (a k : Nat)
    (hpc : (s.archs a).pc = .fanout k) (hk : k < filesLen c a) :
    Inv c { s with
      archs := upd1 s.archs a { s.archs a with pc := .fanout (k + 1) },
      files := upd2 s.files a k { s.files a k with pc := .queued, info := fileInfoP c a k },
      tr := s.tr ++ [.writeFileInfo a k, .enqueueFile a k] } := by
  obtain ⟨ha1, ha2, ha3, ha4, ha5, ha6⟩ := hi.archI a
  obtain ⟨herr, harchP, hkle⟩ := ha5 k hpc
  have hdoneA : (s.archs a).done = true := by
    rw [hpc] at ha1
    simpa [APC.pastClose] using ha1
  have hnq : (s.files a k).pc = .notQueued := by
    by_contra hne
    obtain ⟨_, k', hk', hlt⟩ := hi.sched a k hne
    rw [hpc] at hk'
    have : k = k' := by
      have := hk'
      simp at this
      omega
    omega
  have hfinit : s.files a k = initFileSt := (hi.fileI a k).2.1 hnq
  have hfdone : (s.files a k).done = false := by rw [hfinit]; rfl
  have hfres : (s.files a k).res = (none, none, none) := by rw [hfinit]; rfl
  refine ⟨?_, ?_, ?_, hi.cpcA, ?_, hi.accI, ?_, ?_, ?_, ?_, ?_, ?_, ?_⟩ <;> dsimp only
  · intro x
    by_cases hx : x = a
    · subst hx
      rw [upd1_self]
      refine ⟨by simpa [APC.pastClose] using hdoneA, ?_, ?_, ?_, ?_, ?_⟩
      · intro h; simp at h
      · intro h; simp at h
      · intro h; simp at h
      · intro k' h
        have hkk : k' = k + 1 := by
          have := h.symm
          simp at this
          omega
        subst hkk
        exact ⟨herr, harchP, by omega⟩
      · intro h; simp at h
    · rw [upd1_ne _ _ _ hx]; exact hi.archI x
  · intro x y
    by_cases hxy : x = a ∧ y = k
    · obtain ⟨rfl, rfl⟩ := hxy
      rw [upd2_self]
      refine ⟨by rw [hfdone]; rfl, ?_, ?_, ?_⟩
      · intro h; simp at h
      · intro _; exact ⟨rfl, hfres⟩
      · intro h
        rcases h with h | h <;> simp at h
    · rw [upd2_ne _ _ _ _ hxy]; exact hi.fileI x y
  · intro x y h
    by_cases hxy : x = a ∧ y = k
    · obtain ⟨rfl, rfl⟩ := hxy
      refine ⟨hk, y + 1, ?_, by omega⟩
      rw [upd1_self]
    · rw [upd2_ne _ _ _ _ hxy] at h
      obtain ⟨hy, k', hk', hlt⟩ := hi.sched x y h
      by_cases hx : x = a
      · subst hx
        rw [hpc] at hk'
        have hkk : k' = k := by
          have := hk'
          simp at this
          omega
        subst hkk
        exact ⟨hy, k' + 1, by rw [upd1_self], by omega⟩
      · exact ⟨hy, k', by rw [upd1_ne _ _ _ hx]; exact hk', hlt⟩
  · intro x f h
    obtain ⟨h1, h2, h3, h4⟩ := hi.cpcF x f h
    by_cases hx : x = a
    · subst hx
      exact ⟨h1, h2, h3, by rw [upd1_self]; exact hdoneA⟩
    · exact ⟨h1, h2, h3, by rw [upd1_ne _ _ _ hx]; exact h4⟩
  · intro x
    rw [mem_append_two_iff (by simp) (by simp)]
    by_cases hx : x = a
    · subst hx
      rw [upd1_self]
      have h0 := hi.mW1 x
      rw [hpc] at h0
      simpa [APC.pastWrite] using h0
    · rw [upd1_ne _ _ _ hx]; exact hi.mW1 x
  · intro x
    rw [mem_append_two_iff (by simp) (by simp)]
    by_cases hx : x = a
    · subst hx; rw [upd1_self]; exact hi.mS1 x
    · rw [upd1_ne _ _ _ hx]; exact hi.mS1 x
  · intro x y
    by_cases hxy : x = a ∧ y = k
    · obtain ⟨rfl, rfl⟩ := hxy
      rw [upd2_self]
      simp [FPC.scheduled]
    · have hne1 : Ev.writeFileInfo x y ≠ Ev.writeFileInfo a k := by
        intro hcon
        injection hcon with h1 h2
        exact hxy ⟨h1, h2⟩
      rw [mem_append_two_iff hne1 (by simp), upd2_ne _ _ _ _ hxy]
      exact hi.mIn x y
  · intro x y
    by_cases hxy : x = a ∧ y = k
    · obtain ⟨rfl, rfl⟩ := hxy
      rw [upd2_self]
      simp [FPC.scheduled]
    · have hne2 : Ev.enqueueFile x y ≠ Ev.enqueueFile a k := by
        intro hcon
        injection hcon with h1 h2
        exact hxy ⟨h1, h2⟩
      rw [mem_append_two_iff (by simp) hne2, upd2_ne _ _ _ _ hxy]
      exact hi.mEn x y
  · intro x y
    rw [mem_append_two_iff (by simp) (by simp)]
    by_cases hxy : x = a ∧ y = k
    · obtain ⟨rfl, rfl⟩ := hxy
      rw [upd2_self]
      have h0 := hi.mW2 x y
      rw [hnq] at h0
      simpa [FPC.pastWrite] using h0
    · rw [upd2_ne _ _ _ _ hxy]; exact hi.mW2 x y
  · intro x y
    rw [mem_append_two_iff (by simp) (by simp)]
    by_cases hxy : x = a ∧ y = k
    · obtain ⟨rfl, rfl⟩ := hxy
      rw [upd2_self]
      dsimp only
      exact hi.mS2 x y
    · rw [upd2_ne _ _ _ _ hxy]; exact hi.mS2 x y
  · rw [show s.tr ++ [Ev.writeFileInfo a k, Ev.enqueueFile a k] =
      (s.tr ++ [Ev.writeFileInfo a k]) ++ [Ev.enqueueFile a k] from by simp]
    refine goodFrom_append_one (goodFrom_append_one hi.goodI ?_) ?_
    · simp only [evOK, List.nil_append]
      intro hmem
      have h2 := (hi.mS2 a k).mp hmem
      rw [hfdone] at h2
      simp at h2
    · simp only [evOK, List.nil_append]
      simp

theorem inv_dequeueFile {c : Cfg} {s : St} (hi : Inv c s) (a f : Nat)
    (hpc : (s.files a f).pc = .queued) :
    Inv c { s with files := upd2 s.files a f { s.files a f with pc := .taken } } := by
  obtain ⟨hf1, hf2, hf3, hf4⟩ := hi.fileI a f
  obtain ⟨hinfo, hres⟩ := hf3 (Or.inl hpc)
  have hdone : (s.files a f).done = false := by
    rw [hpc] at hf1
    simpa [FPC.pastClose] using hf1
  refine ⟨hi.archI, ?_, ?_, hi.cpcA, hi.cpcF, hi.accI, hi.mW1, hi.mS1, ?_, ?_, ?_, ?_,
    hi.goodI⟩ <;> dsimp only
  · intro x y
    by_cases hxy : x = a ∧ y = f
    · obtain ⟨rfl, rfl⟩ := hxy
      rw [upd2_self]
      refine ⟨by rw [hdone]; rfl, ?_, ?_, ?_⟩
      · intro h; simp at h
      · intro _; exact ⟨hinfo, hres⟩
      · intro h; rcases h with h | h <;> simp at h
    · rw [upd2_ne _ _ _ _ hxy]; exact hi.fileI x y
  · intro x y h
    by_cases hxy : x = a ∧ y = f
    · obtain ⟨rfl, rfl⟩ := hxy
      exact hi.sched x y (by rw [hpc]; simp)
    · rw [upd2_ne _ _ _ _ hxy] at h
      exact hi.sched x y h
  · intro x y
    by_cases hxy : x = a ∧ y = f
    · obtain ⟨rfl, rfl⟩ := hxy
      rw [upd2_self]
      have h0 := hi.mIn x y
      rw [hpc] at h0
      simpa [FPC.scheduled] using h0
    · rw [upd2_ne _ _ _ _ hxy]; exact hi.mIn x y
  · intro x y
    by_cases hxy : x = a ∧ y = f
    · obtain ⟨rfl, rfl⟩ := hxy
      rw [upd2_self]
      have h0 := hi.mEn x y
      rw [hpc] at h0
      simpa [FPC.scheduled] using h0
    · rw [upd2_ne _ _ _ _ hxy]; exact hi.mEn x y
  · intro x y
    by_cases hxy : x = a ∧ y = f
    · obtain ⟨rfl, rfl⟩ := hxy
      rw [upd2_self]
      have h0 := hi.mW2 x y
      rw [hpc] at h0
      simpa [FPC.pastWrite] using h0
    · rw [upd2_ne _ _ _ _ hxy]; exact hi.mW2 x y
  · intro x y
    by_cases hxy : x = a ∧ y = f
    · obtain ⟨rfl, rfl⟩ := hxy
      rw [upd2_self]
      dsimp only
      exact hi.mS2 x y
    · rw [upd2_ne _ _ _ _ hxy]; exact hi.mS2 x y

theorem inv_writeFile {c : Cfg} {s : St} (hi : Inv c s) (a f : Nat)
    (hpc : (s.files a f).pc = .taken) :
    Inv c { s with
      files := upd2 s.files a f { s.files a f with
        pc := .written,
        res := processFile c.ext a c.os ⟨fileNameAt c a f, (s.files a f).info⟩ },
      tr := s.tr ++ [.writeFileRes a f] } := by
  obtain ⟨hf1, hf2, hf3, hf4⟩ := hi.fileI a f
  obtain ⟨hinfo, hres⟩ := hf3 (Or.inr hpc)
  have hdone : (s.files a f).done = false := by
    rw [hpc] at hf1
    simpa [FPC.pastClose] using hf1
  have hresP : processFile c.ext a c.os ⟨fileNameAt c a f, (s.files a f).info⟩ =
      fileResP c a f := by
    rw [hinfo]; rfl
  refine ⟨hi.archI, ?_, ?_, hi.cpcA, hi.cpcF, hi.accI, ?_, ?_, ?_, ?_, ?_, ?_, ?_⟩ <;>
    dsimp only
  · intro x y
    by_cases hxy : x = a ∧ y = f
    · obtain ⟨rfl, rfl⟩ := hxy
      rw [upd2_self]
      refine ⟨by rw [hdone]; rfl, ?_, ?_, ?_⟩
      · intro h; simp at h
      · intro h; rcases h with h | h <;> simp at h
      · intro _; exact ⟨hinfo, hresP⟩
    · rw [upd2_ne _ _ _ _ hxy]; exact hi.fileI x y
  · intro x y h
    by_cases hxy : x = a ∧ y = f
    · obtain ⟨rfl, rfl⟩ := hxy
      exact hi.sched x y (by rw [hpc]; simp)
    · rw [upd2_ne _ _ _ _ hxy] at h
      exact hi.sched x y h
  · intro x; rw [mem_append_one_iff (by simp)]; exact hi.mW1 x
  · intro x; rw [mem_append_one_iff (by simp)]; exact hi.mS1 x
  · intro x y
    rw [mem_append_one_iff (by simp)]
    by_cases hxy : x = a ∧ y = f
    · obtain ⟨rfl, rfl⟩ := hxy
      rw [upd2_self]
      have h0 := hi.mIn x y
      rw [hpc] at h0
      simpa [FPC.scheduled] using h0
    · rw [upd2_ne _ _ _ _ hxy]; exact hi.mIn x y
  · intro x y
    rw [mem_append_one_iff (by simp)]
    by_cases hxy : x = a ∧ y = f
    · obtain ⟨rfl, rfl⟩ := hxy
      rw [upd2_self]
      have h0 := hi.mEn x y
      rw [hpc] at h0
      simpa [FPC.scheduled] using h0
    · rw [upd2_ne _ _ _ _ hxy]; exact hi.mEn x y
  · intro x y
    by_cases hxy : x = a ∧ y = f
    · obtain ⟨rfl, rfl⟩ := hxy
      rw [upd2_self]
      simp [FPC.pastWrite]
    · have hne : Ev.writeFileRes x y ≠ Ev.writeFileRes a f := by
        intro hcon
        injection hcon with h1 h2
        exact hxy ⟨h1, h2⟩
      rw [mem_append_one_iff hne, upd2_ne _ _ _ _ hxy]
      exact hi.mW2 x y
  · intro x y
    rw [mem_append_one_iff (by simp)]
    by_cases hxy : x = a ∧ y = f
    · obtain ⟨rfl, rfl⟩ := hxy
      rw [upd2_self]
      dsimp only
      exact hi.mS2 x y
    · rw [upd2_ne _ _ _ _ hxy]; exact hi.mS2 x y
  · refine goodFrom_append_one hi.goodI ?_
    simp only [evOK, List.nil_append]
    intro hmem
    have h2 := (hi.mS2 a f).mp hmem
    rw [hdone] at h2
    simp at h2

theorem inv_closeFile {c : Cfg} {s : St} (hi : Inv c s) (a f : Nat)
    (hpc : (s.files a f).pc = .written) :
    Inv c { s with
      files := upd2 s.files a f { s.files a f with pc := .closedDone, done := true },
      tr := s.tr ++ [.signalFile a f] } := by
  obtain ⟨hf1, hf2, hf3, hf4⟩ := hi.fileI a f
  obtain ⟨hinfo, hres⟩ := hf4 (Or.inl hpc)
  have hdone : (s.files a f).done = false := by
    rw [hpc] at hf1
    simpa [FPC.pastClose] using hf1
  have hWr : Ev.writeFileRes a f ∈ s.tr := by
    rw [hi.mW2 a f, hpc]; rfl
  have hIn : Ev.writeFileInfo a f ∈ s.tr := by
    rw [hi.mIn a f, hpc]; rfl
  refine ⟨hi.archI, ?_, ?_, hi.cpcA, hi.cpcF, hi.accI, ?_, ?_, ?_, ?_, ?_, ?_, ?_⟩ <;>
    dsimp only
  · intro x y
    by_cases hxy : x = a ∧ y = f
    · obtain ⟨rfl, rfl⟩ := hxy
      rw [upd2_self]
      refine ⟨rfl, ?_, ?_, ?_⟩
      · intro h; simp at h
      · intro h; rcases h with h | h <;> simp at h
      · intro _; exact ⟨hinfo, hres⟩
    · rw [upd2_ne _ _ _ _ hxy]; exact hi.fileI x y
  · intro x y h
    by_cases hxy : x = a ∧ y = f
    · obtain ⟨rfl, rfl⟩ := hxy
      exact hi.sched x y (by rw [hpc]; simp)
    · rw [upd2_ne _ _ _ _ hxy] at h
      exact hi.sched x y h
  · intro x; rw [mem_append_one_iff (by simp)]; exact hi.mW1 x
  · intro x; rw [mem_append_one_iff (by simp)]; exact hi.mS1 x
  · intro x y
    rw [mem_append_one_iff (by simp)]
    by_cases hxy : x = a ∧ y = f
    · obtain ⟨rfl, rfl⟩ := hxy
      rw [upd2_self]
      have h0 := hi.mIn x y
      rw [hpc] at h0
      simpa [FPC.scheduled] using h0
    · rw [upd2_ne _ _ _ _ hxy]; exact hi.mIn x y
  · intro x y
    rw [mem_append_one_iff (by simp)]
    by_cases hxy : x = a ∧ y = f
    · obtain ⟨rfl, rfl⟩ := hxy
      rw [upd2_self]
      have h0 := hi.mEn x y
      rw [hpc] at h0
      simpa [FPC.scheduled] using h0
    · rw [upd2_ne _ _ _ _ hxy]; exact hi.mEn x y
  · intro x y
    rw [mem_append_one_iff (by simp)]
    by_cases hxy : x = a ∧ y = f
    · obtain ⟨rfl, rfl⟩ := hxy
      rw [upd2_self]
      have h0 := hi.mW2 x y
      rw [hpc] at h0
      simpa [FPC.pastWrite] using h0
    · rw [upd2_ne _ _ _ _ hxy]; exact hi.mW2 x y
  · intro x y
    by_cases hxy : x = a ∧ y = f
    · obtain ⟨rfl, rfl⟩ := hxy
      rw [upd2_self]
      simp
    · have hne : Ev.signalFile x y ≠ Ev.signalFile a f := by
        intro hcon
        injection hcon with h1 h2
        exact hxy ⟨h1, h2⟩
      rw [mem_append_one_iff hne, upd2_ne _ _ _ _ hxy]
      exact hi.mS2 x y
  · refine goodFrom_append_one hi.goodI ?_
    simp only [evOK, List.nil_append]
    refine ⟨?_, hWr, hIn⟩
    intro hmem
    have h2 := (hi.mS2 a f).mp hmem
    rw [hdone] at h2
    simp at h2

theorem inv_collectArchErr {c : Cfg} {s : St} (hi : Inv c s) (a : Nat) (e : String)
    (hpc : s.cpc = .atArch a) (ha : a < c.arches.length)
    (hdone : (s.archs a).done = true) (herr : (s.archs a).err = some e) :
    Inv c { s with
      cpc := .atArch (a + 1), failed := true,
      out := s.out ++ [.generating c.os (archNameAt c a), .archError e],
      tr := s.tr ++ [.readArchErr a] } := by
  have herrP : archErrP c a = some e := by
    rw [← archErr_of_done (hi.archI a) hdone]
    exact herr
  refine ⟨hi.archI, hi.fileI, hi.sched, ?_, ?_, ?_, ?_, ?_, ?_, ?_, ?_, ?_, ?_⟩ <;>
    dsimp only
  · intro x hx
    have : a + 1 = x := by simpa using hx
    omega
  · intro x y hxy
    simp at hxy
  · have hacc := hi.accI
    rw [hpc] at hacc
    simp only [collectAt] at hacc
    simp only [accOf] at hacc ⊢
    simp only [collectAt]
    rw [show archesUpTo c (a + 1) = archApply c a (archesUpTo c a) from rfl, ← hacc]
    simp [archApply, herrP]
  · intro x; rw [mem_append_one_iff (by simp)]; exact hi.mW1 x
  · intro x; rw [mem_append_one_iff (by simp)]; exact hi.mS1 x
  · intro x y; rw [mem_append_one_iff (by simp)]; exact hi.mIn x y
  · intro x y; rw [mem_append_one_iff (by simp)]; exact hi.mEn x y
  · intro x y; rw [mem_append_one_iff (by simp)]; exact hi.mW2 x y
  · intro x y; rw [mem_append_one_iff (by simp)]; exact hi.mS2 x y
  · refine goodFrom_append_one hi.goodI ?_
    simp only [evOK, List.nil_append]
    exact (hi.mS1 a).mpr hdone

theorem inv_collectArchOk {c : Cfg} {s : St} (hi : Inv c s) (a : Nat)
    (hpc : s.cpc = .atArch a) (ha : a < c.arches.length)
    (hdone : (s.archs a).done = true) (herr : (s.archs a).err = none) :
    Inv c { s with
      cpc := .atFile a 0,
      out := s.out ++ [.generating c.os (archNameAt c a)],
      tr := s.tr ++ [.readArchErr a] } := by
  have herrP : archErrP c a = none := by
    rw [← archErr_of_done (hi.archI a) hdone]
    exact herr
  refine ⟨hi.archI, hi.fileI, hi.sched, ?_, ?_, ?_, ?_, ?_, ?_, ?_, ?_, ?_, ?_⟩ <;>
    dsimp only
  · intro x hx
    simp at hx
  · intro x y hxy
    have hax : a = x ∧ 0 = y := by simpa using hxy
    obtain ⟨rfl, rfl⟩ := hax
    exact ⟨ha, Nat.zero_le _, herrP, hdone⟩
  · have hacc := hi.accI
    rw [hpc] at hacc
    simp only [collectAt] at hacc
    simp only [collectAt, accFiles]
    simp only [accOf] at hacc ⊢
    rw [← hacc]
  · intro x; rw [mem_append_one_iff (by simp)]; exact hi.mW1 x
  · intro x; rw [mem_append_one_iff (by simp)]; exact hi.mS1 x
  · intro x y; rw [mem_append_one_iff (by simp)]; exact hi.mIn x y
  · intro x y; rw [mem_append_one_iff (by simp)]; exact hi.mEn x y
  · intro x y; rw [mem_append_one_iff (by simp)]; exact hi.mW2 x y
  · intro x y; rw [mem_append_one_iff (by simp)]; exact hi.mS2 x y
  · refine goodFrom_append_one hi.goodI ?_
    simp only [evOK, List.nil_append]
    exact (hi.mS1 a).mpr hdone

theorem inv_collectFileErr {c : Cfg} {s : St} (hi : Inv c s) (a f : Nat) (e : String)
    (hpc : s.cpc = .atFile a f) (hf : f < filesLen c a)
    (hdone : (s.files a f).done = true) (herr : (s.files a f).res.2.2 = some e) :
    Inv c { s with
      cpc := .atFile a (f + 1), failed := true,
      out := s.out ++ [.fileError (fileNameAt c a f) e],
      tr := s.tr ++ [.readFileRes a f] } := by
  obtain ⟨ha, hfle, harchP, hdoneA⟩ := hi.cpcF a f hpc
  obtain ⟨hfpc, hres⟩ := fileState_of_done (hi.fileI a f) hdone
  have herrP : (fileResP c a f).2.2 = some e := by
    rw [← hres]
    exact herr
  refine ⟨hi.archI, hi.fileI, hi.sched, ?_, ?_, ?_, ?_, ?_, ?_, ?_, ?_, ?_, ?_⟩ <;>
    dsimp only
  · intro x hx
    simp at hx
  · intro x y hxy
    have hax : a = x ∧ f + 1 = y := by simpa using hxy
    obtain ⟨rfl, rfl⟩ := hax
    exact ⟨ha, by omega, harchP, hdoneA⟩
  · have hacc := hi.accI
    rw [hpc] at hacc
    simp only [collectAt] at hacc ⊢
    rw [accFiles, ← hacc]
    rcases hr : fileResP c a f with ⟨cs, ud, er⟩
    have her : er = some e := by
      have := herrP
      rw [hr] at this
      exact this
    subst her
    simp [fileApply, hr, accOf]
  · intro x; rw [mem_append_one_iff (by simp)]; exact hi.mW1 x
  · intro x; rw [mem_append_one_iff (by simp)]; exact hi.mS1 x
  · intro x y; rw [mem_append_one_iff (by simp)]; exact hi.mIn x y
  · intro x y; rw [mem_append_one_iff (by simp)]; exact hi.mEn x y
  · intro x y; rw [mem_append_one_iff (by simp)]; exact hi.mW2 x y
  · intro x y; rw [mem_append_one_iff (by simp)]; exact hi.mS2 x y
  · refine goodFrom_append_one hi.goodI ?_
    simp only [evOK, List.nil_append]
    exact (hi.mS2 a f).mpr hdone

theorem inv_collectFileOk {c : Cfg} {s : St} (hi : Inv c s) (a f : Nat)
    (hpc : s.cpc = .atFile a f) (hf : f < filesLen c a)
    (hdone : (s.files a f).done = true) (herr : (s.files a f).res.2.2 = none) :
    Inv c { s with
      cpc := .atFile a (f + 1),
      calls := s.calls ++ [⟨fileNameAt c a f, archNameAt c a,
        (s.files a f).res.1, (s.files a f).res.2.1⟩],
      tr := s.tr ++ [.readFileRes a f] } := by
  obtain ⟨ha, hfle, harchP, hdoneA⟩ := hi.cpcF a f hpc
  obtain ⟨hfpc, hres⟩ := fileState_of_done (hi.fileI a f) hdone
  refine ⟨hi.archI, hi.fileI, hi.sched, ?_, ?_, ?_, ?_, ?_, ?_, ?_, ?_, ?_, ?_⟩ <;>
    dsimp only
  · intro x hx
    simp at hx
  · intro x y hxy
    have hax : a = x ∧ f + 1 = y := by simpa using hxy
    obtain ⟨rfl, rfl⟩ := hax
    exact ⟨ha, by omega, harchP, hdoneA⟩
  · have hacc := hi.accI
    rw [hpc] at hacc
    simp only [collectAt] at hacc ⊢
    rw [accFiles, ← hacc]
    rcases hr : fileResP c a f with ⟨cs, ud, er⟩
    have her : er = none := by
      have h0 := herr
      rw [hres, hr] at h0
      exact h0
    subst her
    have h1 : (s.files a f).res.1 = cs := by rw [hres, hr]
    have h2 : (s.files a f).res.2.1 = ud := by rw [hres, hr]
    simp [fileApply, hr, accOf, h1, h2]
  · intro x; rw [mem_append_one_iff (by simp)]; exact hi.mW1 x
  · intro x; rw [mem_append_one_iff (by simp)]; exact hi.mS1 x
  · intro x y; rw [mem_append_one_iff (by simp)]; exact hi.mIn x y
  · intro x y; rw [mem_append_one_iff (by simp)]; exact hi.mEn x y
  · intro x y; rw [mem_append_one_iff (by simp)]; exact hi.mW2 x y
  · intro x y; rw [mem_append_one_iff (by simp)]; exact hi.mS2 x y
  · refine goodFrom_append_one hi.goodI ?_
    simp only [evOK, List.nil_append]
    exact (hi.mS2 a f).mpr hdone

theorem inv_collectFilesDone {c : Cfg} {s : St} (hi : Inv c s) (a : Nat)
    (hpc : s.cpc = .atFile a (filesLen c a)) :
    Inv c { s with cpc := .atArch (a + 1) } := by
  obtain ⟨ha, hfle, harchP, hdoneA⟩ := hi.cpcF a (filesLen c a) hpc
  refine ⟨hi.archI, hi.fileI, hi.sched, ?_, ?_, ?_, hi.mW1, hi.mS1, hi.mIn, hi.mEn,
    hi.mW2, hi.mS2, hi.goodI⟩ <;> dsimp only
  · intro x hx
    have : a + 1 = x := by simpa using hx
    omega
  · intro x y hxy
    simp at hxy
  · have hacc := hi.accI
    rw [hpc] at hacc
    simp only [collectAt] at hacc
    simp only [collectAt]
    rw [show archesUpTo c (a + 1) = archApply c a (archesUpTo c a) from rfl]
    simp only [archApply, harchP]
    exact hacc

theorem inv_step {c : Cfg} {s s' : St} (hi : Inv c s) (hs : Step c s s') : Inv c s' := by
  cases hs with
  | dequeueArch a ha hpc => exact inv_dequeueArch hi a hpc
  | writeArch a hpc => exact inv_writeArch hi a hpc
  | closeArch a hpc => exact inv_closeArch hi a hpc
  | fanout a k hpc hk => exact inv_fanout hi a k hpc hk
  | dequeueFile a f hpc => exact inv_dequeueFile hi a f hpc
  | writeFile a f hpc => exact inv_writeFile hi a f hpc
  | closeFile a f hpc => exact inv_closeFile hi a f hpc
  | collectArchErr a e hpc ha hdone herr => exact inv_collectArchErr hi a e hpc ha hdone herr
  | collectArchOk a hpc ha hdone herr => exact inv_collectArchOk hi a hpc ha hdone herr
  | collectFileErr a f e hpc hf hdone herr => exact inv_collectFileErr hi a f e hpc hf hdone herr
  | collectFileOk a f hpc hf hdone herr => exact inv_collectFileOk hi a f hpc hf hdone herr
  | collectFilesDone a hpc => exact inv_collectFilesDone hi a hpc

/-- Every reachable state satisfies the inductive invariant. -/
theorem reach_inv {c : Cfg} {s : St} (h : Reach c s) : Inv c s := by
  induction h with
  | init => exact inv_init c
  | step _ hs ih => exact inv_step ih hs

/-- `AddArch` calls contributed by file `(a, f)` (empty on file error). -/
def fileSegCalls (c : Cfg) (a f : Nat) : List AddCall :=
  match fileResP c a f with
  | (_, _, some _) => []
  | (cs, ud, none) => [⟨fileNameAt c a f, archNameAt c a, cs, ud⟩]

/-- Diagnostic lines contributed by file `(a, f)` (empty on success). -/
def fileSegOut (c : Cfg) (a f : Nat) : List OutLine :=
  match fileResP c a f with
  | (_, _, some e) => [.fileError (fileNameAt c a f) e]
  | (_, _, none) => []

/-- Calls contributed by files `0..n-1` of architecture `a`. -/
def filesCalls (c : Cfg) (a n : Nat) : List AddCall :=
  (List.range n).flatMap (fileSegCalls c a)

/-- Lines contributed by files `0..n-1` of architecture `a`. -/
def filesOut (c : Cfg) (a n : Nat) : List OutLine :=
  (List.range n).flatMap (fileSegOut c a)

/-- Whether any of files `0..n-1` of architecture `a` fails. -/
def filesFailed (c : Cfg) (a n : Nat) : Bool :=
  (List.range n).any fun f => ((fileResP c a f).2.2).isSome

/-- Calls contributed by architecture `a` as a whole. -/
def archSegCalls (c : Cfg) (a : Nat) : List AddCall :=
  match archErrP c a with
  | some _ => []
  | none => filesCalls c a (filesLen c a)

/-- Lines contributed by architecture `a` as a whole. -/
def archSegOut (c : Cfg) (a : Nat) : List OutLine :=
  OutLine.generating c.os (archNameAt c a) ::
    (match archErrP c a with
     | some e => [.archError e]
     | none => filesOut c a (filesLen c a))

theorem fileApply_decomp (c : Cfg) (a f : Nat) (acc : Acc) :
    fileApply c a f acc =
      ⟨acc.calls ++ fileSegCalls c a f, acc.out ++ fileSegOut c a f,
        acc.failed || ((fileResP c a f).2.2).isSome⟩ := by
  rcases hr : fileResP c a f with ⟨cs, ud, er⟩
  cases er <;> simp [fileApply, fileSegCalls, fileSegOut, hr]

theorem accFiles_decomp (c : Cfg) (a : Nat) (n : Nat) (acc : Acc) :
    accFiles c a n acc =
      ⟨acc.calls ++ filesCalls c a n, acc.out ++ filesOut c a n,
        acc.failed || filesFailed c a n⟩ := by
  induction n with
  | zero => simp [accFiles, filesCalls, filesOut, filesFailed]
  | succ n ih =>
    rw [show accFiles c a (n + 1) acc = fileApply c a n (accFiles c a n acc) from rfl, ih,
      fileApply_decomp]
    simp [filesCalls, filesOut, filesFailed, List.range_succ, Bool.or_assoc]

theorem archApply_decomp (c : Cfg) (a : Nat) (acc : Acc) :
    archApply c a acc =
      ⟨acc.calls ++ archSegCalls c a, acc.out ++ archSegOut c a,
        acc.failed || archSegFailed c a⟩ := by
  cases he : archErrP c a with
  | some e =>
    simp [archApply, he, archSegCalls, archSegOut, archSegFailed]
  | none =>
    rw [show archApply c a acc =
      accFiles c a (filesLen c a)
        { acc with out := acc.out ++ [.generating c.os (archNameAt c a)] } from by
        simp [archApply, he], accFiles_decomp]
    simp [archSegCalls, archSegOut, archSegFailed, he, filesFailed]

theorem archesUpTo_decomp (c : Cfg) (n : Nat) :
    archesUpTo c n =
      ⟨(List.range n).flatMap (archSegCalls c), (List.range n).flatMap (archSegOut c),
        (List.range n).any (archSegFailed c)⟩ := by
  induction n with
  | zero => simp [archesUpTo]
  | succ n ih =>
    rw [show archesUpTo c (n + 1) = archApply c n (archesUpTo c n) from rfl, ih,
      archApply_decomp]
    simp [List.range_succ]

/-- In a drained reachable state the collector accumulators equal the pure
reference result. -/
theorem drained_acc {c : Cfg} {s : St} (h : Reach c s) (hd : Drained c s) :
    accOf s = collectP c := by
  have hacc := (reach_inv h).accI
  rw [hd] at hacc
  simpa [collectAt, collectP] using hacc

theorem collectP_failed (c : Cfg) : (collectP c).failed = anyJobErr c := by
  rw [collectP, archesUpTo_decomp]
  rfl

theorem supportedOf_iff (data : List (List FileFinal)) (n : String) :
    supportedOf data n = true ↔ resolvedSomewhere data n := by
  simp [supportedOf, resolvedSomewhere, List.any_eq_true]

theorem mem_undeclKeys_iff (data : List (List FileFinal)) (n : String) :
    n ∈ (undeclPairs data).map Prod.fst ↔ undeclSomewhere data n := by
  simp only [undeclPairs, undeclSomewhere, List.mem_map, List.mem_flatMap]
  constructor
  · rintro ⟨⟨u, fl⟩, ⟨fs, hfs, f, hf, hu⟩, hfst⟩
    simp only [List.mem_map, Prod.mk.injEq] at hu
    obtain ⟨m, hm, hmu, hmf⟩ := hu
    subst hmu
    refine ⟨fs, hfs, f, hf, ?_⟩
    simpa using hfst ▸ hm
  · rintro ⟨fs, hfs, f, hf, hn⟩
    refine ⟨(n, f.name), ⟨fs, hfs, f, hf, ?_⟩, rfl⟩
    simp only [List.mem_map, Prod.mk.injEq]
    exact ⟨n, hn, rfl, trivial⟩

theorem outname_inj {os n₁ n₂ : String} (h : outname os n₁ = outname os n₂) : n₁ = n₂ := by
  have hd := congrArg String.data h
  simp only [outname, String.data_append, List.append_assoc] at hd
  have h1 := List.append_cancel_left hd
  have h2 := List.append_cancel_left h1
  have h3 := List.append_cancel_left h2
  have h4 := List.append_cancel_right h3
  cases n₁
  cases n₂
  simp only [String.data] at h4
  exact congrArg String.mk h4

theorem constFilesOf_aux (rest : List AddCall) :
    ∀ (done : List AddCall) (m : List (String × List AddCall)),
      (m.map Prod.fst).Nodup →
      (∀ k, k ∈ m.map Prod.fst ↔ k ∈ done.map (·.file)) →
      ((rest.foldl addCallTo m).map Prod.fst).Nodup ∧
      ∀ k, k ∈ (rest.foldl addCallTo m).map Prod.fst ↔
        k ∈ (done ++ rest).map (·.file) := by
  induction rest with
  | nil =>
    intro done m hnd hiff
    rw [List.foldl_nil, List.append_nil]
    exact ⟨hnd, hiff⟩
  | cons call rest ih =>
    intro done m hnd hiff
    rw [List.foldl_cons]
    have hstep :
        ((addCallTo m call).map Prod.fst).Nodup ∧
        ∀ k, k ∈ (addCallTo m call).map Prod.fst ↔
          k ∈ (done ++ [call]).map (·.file) := by
      by_cases hmem : (m.any fun p => p.1 == call.file) = true
      · have hkeys : (addCallTo m call).map Prod.fst = m.map Prod.fst := by
          simp only [addCallTo, hmem, if_pos, List.map_map]
          apply List.map_congr_left
          intro p _
          simp only [Function.comp]
          split <;> rfl
        have hin : call.file ∈ m.map Prod.fst := by
          simp only [List.any_eq_true, beq_iff_eq] at hmem
          obtain ⟨p, hp, hpe⟩ := hmem
          exact List.mem_map.mpr ⟨p, hp, hpe⟩
        refine ⟨by rw [hkeys]; exact hnd, ?_⟩
        intro k
        rw [hkeys, hiff k]
        simp only [List.map_append, List.mem_append, List.map_cons, List.map_nil,
          List.mem_singleton]
        constructor
        · intro hk
          exact Or.inl hk
        · rintro (hk | hk)
          · exact hk
          · subst hk
            exact (hiff _).mp hin
      · have hkeys : (addCallTo m call).map Prod.fst = m.map Prod.fst ++ [call.file] := by
          simp [addCallTo, hmem]
        have hnin : call.file ∉ m.map Prod.fst := by
          intro hco
          apply hmem
          simp only [List.mem_map] at hco
          obtain ⟨p, hp, hpe⟩ := hco
          simp only [List.any_eq_true, beq_iff_eq]
          exact ⟨p, hp, hpe⟩
        refine ⟨?_, ?_⟩
        · rw [hkeys]
          refine List.Nodup.append hnd (List.nodup_singleton _) ?_
          intro k hk hks
          rw [List.mem_singleton] at hks
          exact hnin (hks ▸ hk)
        · intro k
          rw [hkeys]
          simp only [List.mem_append, List.mem_singleton, List.map_append, List.map_cons,
            List.map_nil]
          rw [hiff k]
    have := ih (done ++ [call]) (addCallTo m call) hstep.1 hstep.2
    simpa using this

theorem constFilesOf_keys (calls : List AddCall) :
    ((constFilesOf calls).map Prod.fst).Nodup ∧
    ∀ k, k ∈ (constFilesOf calls).map Prod.fst ↔ k ∈ calls.map (·.file) := by
  have := constFilesOf_aux calls [] [] (by simp) (by simp)
  simpa [constFilesOf] using this

theorem filter_map_comm {α β : Type} (f : α → β) (p : β → Bool) (l : List α) :
    (l.map f).filter p = (l.filter fun a => p (f a)).map f := by
  induction l with
  | nil => rfl
  | cons a l ih =>
    simp only [List.map_cons, List.filter_cons]
    by_cases hp : p (f a) = true <;> simp [hp, ih]

theorem filter_eq_singleton_of_nodup_map {α β : Type} [DecidableEq β] (key : α → β)
    {l : List α} (hnd : (l.map key).Nodup) {p : α} (hp : p ∈ l) :
    l.filter (fun q => key q == key p) = [p] := by
  induction l with
  | nil => cases hp
  | cons q l ih =>
    simp only [List.map_cons, List.nodup_cons] at hnd
    obtain ⟨hqn, hnd'⟩ := hnd
    rcases List.mem_cons.mp hp with rfl | hpl
    · have hfl : l.filter (fun r => key r == key p) = [] := by
        rw [List.filter_eq_nil_iff]
        intro r hr hco
        apply hqn
        rw [beq_iff_eq] at hco
        exact List.mem_map.mpr ⟨r, hr, hco⟩
      simp [List.filter_cons, hfl]
    · have hqp : (key q == key p) = false := by
        rw [beq_eq_false_iff_ne]
        intro hco
        exact hqn (hco ▸ List.mem_map.mpr ⟨p, hpl, rfl⟩)
      simp [List.filter_cons, hqp, ih hnd' hpl]

theorem createArchesGo_build {env : CreateEnv} {os : String} (hb : env.flagBuild = true) :
    ∀ (archArr : List String) (i : Nat) (files : List String) (l : List ArchCfg),
      createArchesGo env os i archArr files = .ok l →
      l.map (·.buildDir) = (List.range' i archArr.length).map env.tempDir ∧
      ∀ arch ∈ l, arch.build = true := by
  intro archArr
  induction archArr with
  | nil =>
    intro i files l h
    simp only [createArchesGo] at h
    cases h
    simp
  | cons archStr rest ih =>
    intro i files l h
    simp only [createArchesGo, hb, if_pos] at h
    by_cases hk : env.knownArch archStr = true
    · rw [if_pos hk] at h
      cases hrec : createArchesGo env os (i + 1) rest files with
      | error e => rw [hrec] at h; cases h
      | ok others =>
        rw [hrec] at h
        cases h
        obtain ⟨hmap, hbuild⟩ := ih (i + 1) files others hrec
        constructor
        · simp only [List.map_cons, hmap, List.length_cons, List.range'_succ]
        · intro arch harch
          rcases List.mem_cons.mp harch with rfl | hmem
          · rfl
          · exact hbuild arch hmem
    · rw [if_neg hk] at h
      cases h

theorem createArchesGo_files (env : CreateEnv) (os : String) :
    ∀ (archArr : List String) (i : Nat) (files : List String) (l : List ArchCfg),
      createArchesGo env os i archArr files = .ok l →
      l.length = archArr.length ∧
      (files ≠ [] →
        (∀ arch ∈ l, arch.files = sortStrings files) ∧
        (∀ allFiles2, createArchesGo { env with allFiles := allFiles2 } os i archArr files
          = .ok l)) ∧
      (files = [] → ∀ k, k < l.length →
        (l.getD k dummyArch).files = sortStrings (archFilesFor env (archArr.getD k ""))) := by
  intro archArr
  induction archArr with
  | nil =>
    intro i files l h
    simp only [createArchesGo] at h
    cases h
    refine ⟨rfl, fun _ => ⟨by simp, fun allFiles2 => rfl⟩, fun _ k hk => by simp at hk⟩
  | cons archStr rest ih =>
    intro i files l h
    simp only [createArchesGo] at h
    by_cases hk : env.knownArch archStr = true
    · rw [if_pos hk] at h
      cases hrec : createArchesGo env os (i + 1) rest files with
      | error e => rw [hrec] at h; cases h
      | ok others =>
        rw [hrec] at h
        cases h
        obtain ⟨hlen, hne, hnil⟩ := ih (i + 1) files others hrec
        refine ⟨by simp [hlen], ?_, ?_⟩
        · intro hfne
          have hlf : files.length ≠ 0 := by
            intro h0
            exact hfne (List.length_eq_zero.mp h0)
          obtain ⟨hall, henv⟩ := hne hfne
          constructor
          · intro arch harch
            rcases List.mem_cons.mp harch with rfl | hmem
            · simp [hlf]
            · exact hall arch hmem
          · intro allFiles2
            simp [createArchesGo, hk, hlf, henv allFiles2]
        · intro hfe k hk2
          subst hfe
          cases k with
          | zero => simp
          | succ k =>
            simp only [List.getD_cons_succ]
            exact hnil rfl k (by simpa using hk2)
    · rw [if_neg hk] at h
      cases h

/-- C7: `processFile` invokes the extraction backend if and only if the job's
constant-reference info is present and references at least one constant.  With
absent info the job fails immediately with the population error, for any
backend (the result does not mention `ext`); with info present but no
referenced constants it is a silent no-op success, again for any backend; and
with at least one referenced constant the result is exactly the backend's
answer. -/
theorem c7_processFile_backend_iff (ext : Ext) (a : Nat) (os nm : String)
    (i0 i1 : ConstInfo) (h0 : i0.consts = []) (h1 : i1.consts ≠ []) :
    processFile ext a os ⟨nm, none⟩ =
      (none, none,
        some ("const info for input file " ++ ("sys/" ++ os ++ "/" ++ nm) ++ " is missing")) ∧
    processFile ext a os ⟨nm, some i0⟩ = (none, none, none) ∧
    processFile ext a os ⟨nm, some i1⟩ = ext.processFileO a i1 := by
  refine ⟨rfl, ?_, ?_⟩
  · simp [processFile, h0]
  · simp [processFile, List.length_eq_zero, h1]

/-- C1: in every reachable state of the pipeline, the ghost event trace obeys
the publish-before-signal discipline: no result field of a job is written
after that job's one-shot signal has fired, a signal fires at most once and
only after the job's error/result fields (for an architecture job, the `err`
and `infos` binding of the completed `processArch` call; for a file job, its
results and the info attached by the parent worker) are written, a file job is
enqueued only after its info is attached, and the collector reads a job's
fields only after that job's signal has fired.  In particular an architecture
job's error and prepared constant-reference map are finalized before the
collector can observe its completion signal. -/
theorem c1_publish_before_signal (c : Cfg) (s : St) (h : Reach c s) :
    (∀ l₁ e l₂, s.tr = l₁ ++ e :: l₂ → evOK l₁ e) ∧
    (∀ a l₁ l₂, s.tr = l₁ ++ Ev.readArchErr a :: l₂ →
      Ev.writeArchErr a ∈ l₁ ∧ Ev.signalArch a ∈ l₁) ∧
    (∀ a f l₁ l₂, s.tr = l₁ ++ Ev.readFileRes a f :: l₂ →
      Ev.writeFileRes a f ∈ l₁ ∧ Ev.writeFileInfo a f ∈ l₁ ∧ Ev.signalFile a f ∈ l₁) := by
  have hsplit : ∀ l₁ e l₂, s.tr = l₁ ++ e :: l₂ → evOK l₁ e := by
    intro l₁ e l₂ hs
    have := goodFrom_splits (reach_inv h).goodI l₁ e l₂ hs
    simpa using this
  refine ⟨hsplit, ?_, ?_⟩
  · intro a l₁ l₂ hs
    have hsig : Ev.signalArch a ∈ l₁ := hsplit l₁ _ l₂ hs
    obtain ⟨m₁, m₂, rfl⟩ := List.append_of_mem hsig
    have hs2 : s.tr = m₁ ++ Ev.signalArch a :: (m₂ ++ Ev.readArchErr a :: l₂) := by
      rw [hs]
      simp
    have hok : Ev.signalArch a ∉ m₁ ∧ Ev.writeArchErr a ∈ m₁ := hsplit m₁ _ _ hs2
    exact ⟨List.mem_append_left _ hok.2, hsig⟩
  · intro a f l₁ l₂ hs
    have hsig : Ev.signalFile a f ∈ l₁ := hsplit l₁ _ l₂ hs
    obtain ⟨m₁, m₂, rfl⟩ := List.append_of_mem hsig
    have hs2 : s.tr = m₁ ++ Ev.signalFile a f :: (m₂ ++ Ev.readFileRes a f :: l₂) := by
      rw [hs]
      simp
    have hok : Ev.signalFile a f ∉ m₁ ∧ Ev.writeFileRes a f ∈ m₁ ∧
        Ev.writeFileInfo a f ∈ m₁ := hsplit m₁ _ _ hs2
    exact ⟨List.mem_append_left _ hok.2.1, List.mem_append_left _ hok.2.2, hsig⟩

/-- C4: a file job is made schedulable only by the worker that finished its
parent architecture job with no recorded error (the parent's program counter
is in its fan-out phase past the file's index, and its `err` field is nil);
consequently, if the oracle makes an architecture job fail, then in every
reachable state none of its child file jobs has ever been enqueued or
executed, and their result fields are untouched. -/
theorem c4_no_fanout_on_error (c : Cfg) (s : St) (h : Reach c s) :
    (∀ a f, (s.files a f).pc ≠ .notQueued →
      (s.archs a).err = none ∧ archErrP c a = none ∧
        ∃ k, (s.archs a).pc = .fanout k ∧ f < k ∧ f < filesLen c a) ∧
    (∀ a f e, archErrP c a = some e →
      (s.files a f).pc = .notQueued ∧ (s.files a f).res = (none, none, none) ∧
        Ev.enqueueFile a f ∉ s.tr ∧ Ev.writeFileRes a f ∉ s.tr) := by
  have hi := reach_inv h
  constructor
  · intro a f hne
    obtain ⟨hf, k, hk, hlt⟩ := hi.sched a f hne
    obtain ⟨herr, hP, _⟩ := (hi.archI a).2.2.2.2.1 k hk
    exact ⟨herr, hP, k, hk, hlt, hf⟩
  · intro a f e hP
    have hnq : (s.files a f).pc = .notQueued := by
      by_contra hne
      obtain ⟨_, k, hk, _⟩ := hi.sched a f hne
      obtain ⟨_, hnone, _⟩ := (hi.archI a).2.2.2.2.1 k hk
      rw [hP] at hnone
      cases hnone
    have hinit := (hi.fileI a f).2.1 hnq
    refine ⟨hnq, by rw [hinit]; rfl, ?_, ?_⟩
    · intro hmem
      have hsch := (hi.mEn a f).mp hmem
      rw [hnq] at hsch
      simp [FPC.scheduled] at hsch
    · intro hmem
      have hpw := (hi.mW2 a f).mp hmem
      rw [hnq] at hpw
      simp [FPC.pastWrite] at hpw

/-- C2: aggregation is deterministic.  Any two complete (fully drained) runs
of the same configuration — i.e. runs that may differ arbitrarily in the
wall-clock interleaving of worker and collector steps — produce the same
ordered `AddArch` call sequence, the same diagnostics, the same failure flag,
and hence byte-identical serialized constant tables, for every serializer. -/
theorem c2_schedule_independent (c : Cfg) (s₁ s₂ : St) (h₁ : Reach c s₁) (h₂ : Reach c s₂)
    (d₁ : Drained c s₁) (d₂ : Drained c s₂) :
    s₁.calls = s₂.calls ∧ s₁.out = s₂.out ∧ s₁.failed = s₂.failed ∧
    ∀ ser : List AddCall → List Nat,
      (constFilesOf s₁.calls).map (fun p => (p.1, ser p.2)) =
        (constFilesOf s₂.calls).map (fun p => (p.1, ser p.2)) := by
  have e₁ := drained_acc h₁ d₁
  have e₂ := drained_acc h₂ d₂
  have he := e₁.trans e₂.symm
  have hcalls : s₁.calls = s₂.calls := by
    have := congrArg Acc.calls he
    simpa [accOf] using this
  have hout : s₁.out = s₂.out := by
    have := congrArg Acc.out he
    simpa [accOf] using this
  have hfail : s₁.failed = s₂.failed := by
    have := congrArg Acc.failed he
    simpa [accOf] using this
  exact ⟨hcalls, hout, hfail, fun ser => by rw [hcalls]⟩

theorem drained_out {c : Cfg} {s : St} (h : Reach c s) (hd : Drained c s) :
    s.out = (List.range c.arches.length).flatMap (archSegOut c) := by
  have hx := congrArg Acc.out (drained_acc h hd)
  simp only [accOf] at hx
  rw [hx, collectP, archesUpTo_decomp]

theorem drained_failed {c : Cfg} {s : St} (h : Reach c s) (hd : Drained c s) :
    s.failed = anyJobErr c := by
  have hx := congrArg Acc.failed (drained_acc h hd)
  simp only [accOf] at hx
  rw [hx, collectP_failed]

/-- C5: in every complete run, the collector drains everything: the final
`failed` flag is set iff some architecture- or file-phase job error occurred,
every failing architecture leaves its `generating` line immediately followed
by its error line in the output, every failing file job of a successful
architecture leaves its `name: error` line, aggregation of all other jobs
still reaches the pure reference result, and any job error makes the final
process outcome non-zero. -/
theorem c5_partial_failure_collection (c : Cfg) (s : St) (flagArch : String)
    (ser : List AddCall → List Nat) (h : Reach c s) (hd : Drained c s) :
    s.failed = anyJobErr c ∧
    s.calls = (collectP c).calls ∧
    (∀ a e, a < c.arches.length → archErrP c a = some e →
      ∃ l₁ l₂, s.out = l₁ ++ [OutLine.generating c.os (archNameAt c a),
        OutLine.archError e] ++ l₂) ∧
    (∀ a f e, a < c.arches.length → f < filesLen c a → archErrP c a = none →
      (fileResP c a f).2.2 = some e →
      OutLine.fileError (fileNameAt c a f) e ∈ s.out) ∧
    (anyJobErr c = true → (mainTail c flagArch ser s).exitFailed = true) := by
  refine ⟨drained_failed h hd, ?_, ?_, ?_, ?_⟩
  · have hx := congrArg Acc.calls (drained_acc h hd)
    simpa [accOf] using hx
  · intro a e ha he
    rw [drained_out h hd]
    have hmem : a ∈ List.range c.arches.length := List.mem_range.mpr ha
    obtain ⟨t₁, t₂, ht⟩ := List.append_of_mem hmem
    rw [ht]
    refine ⟨t₁.flatMap (archSegOut c), t₂.flatMap (archSegOut c), ?_⟩
    have hseg : archSegOut c a =
        [.generating c.os (archNameAt c a), .archError e] := by
      simp [archSegOut, he]
    rw [List.flatMap_append, List.flatMap_cons, hseg]
    simp [List.append_assoc]
  · intro a f e ha hf hnone hres
    rw [drained_out h hd]
    rw [List.mem_flatMap]
    refine ⟨a, List.mem_range.mpr ha, ?_⟩
    simp only [archSegOut, hnone]
    rw [List.mem_cons]
    right
    rw [filesOut, List.mem_flatMap]
    refine ⟨f, List.mem_range.mpr hf, ?_⟩
    rcases hr : fileResP c a f with ⟨cs, ud, er⟩
    have her : er = some e := by
      rw [hr] at hres
      exact hres
    subst her
    simp [fileSegOut, hr]
  · intro hany
    have hfail := drained_failed h hd
    rw [hany] at hfail
    simp [mainTail, hfail]

/-- C9: the cross-architecture consistency check runs only when no job error
occurred at all: if any architecture- or file-phase error occurred, the final
`failed` flag is already set when the check site is reached, so the check is
skipped (it contributes no output and the outcome is failure regardless of
what it would report), for every `-arch` flag value; conversely, in an
error-free run with an unrestricted architecture set, the process outcome and
the extra output are exactly the check's. -/
theorem c9_check_skipped_on_any_error (c : Cfg) (s : St) (ser : List AddCall → List Nat)
    (h : Reach c s) (hd : Drained c s) :
    (∀ flagArch, anyJobErr c = true →
      s.failed = true ∧ (mainTail c flagArch ser s).out = s.out ∧
        (mainTail c flagArch ser s).exitFailed = true) ∧
    (anyJobErr c = false →
      s.failed = false ∧
      (mainTail c "" ser s).exitFailed = (checkUnsupportedCalls (finalData c s)).1 ∧
      (mainTail c "" ser s).out = s.out ++ (checkUnsupportedCalls (finalData c s)).2) := by
  have hfe := drained_failed h hd
  constructor
  · intro flagArch hany
    rw [hany] at hfe
    refine ⟨hfe, ?_, ?_⟩ <;> simp [mainTail, hfe]
  · intro hany
    rw [hany] at hfe
    refine ⟨hfe, ?_, ?_⟩ <;> simp [mainTail, hfe]

/-- C3: the cross-architecture check reports exactly the names that are
undeclared on at least one (architecture, file) pair and resolved on no
architecture at all; its failure result is set iff some such name exists (so
any reported name makes the run outcome non-zero when the check runs); and
when an explicit `-arch` list was given the check is skipped entirely — the
outcome and output of the tail of `main` are unchanged by it. -/
theorem c3_unsupported_on_all_arches (data : List (List FileFinal)) (n : String)
    (c : Cfg) (flagArch : String) (ser : List AddCall → List Nat) (s : St) :
    ((∃ fl, OutLine.unsupported fl n ∈ (checkUnsupportedCalls data).2) ↔
      undeclSomewhere data n ∧ ¬resolvedSomewhere data n) ∧
    ((checkUnsupportedCalls data).1 = true ↔
      ∃ m, undeclSomewhere data m ∧ ¬resolvedSomewhere data m) ∧
    (flagArch ≠ "" → (mainTail c flagArch ser s).exitFailed = s.failed ∧
      (mainTail c flagArch ser s).out = s.out) ∧
    (s.failed = false → (checkUnsupportedCalls (finalData c s)).1 = true →
      (mainTail c "" ser s).exitFailed = true) := by
  have hmembad : ∀ m, (m ∈ (((undeclPairs data).map Prod.fst).dedup.filter
      fun x => !(supportedOf data x))) ↔
      (undeclSomewhere data m ∧ ¬resolvedSomewhere data m) := by
    intro m
    rw [List.mem_filter, List.mem_dedup, mem_undeclKeys_iff]
    constructor
    · rintro ⟨hu, hs⟩
      refine ⟨hu, ?_⟩
      rw [← supportedOf_iff]
      rw [Bool.not_eq_true'] at hs
      rw [hs]
      simp
    · rintro ⟨hu, hs⟩
      refine ⟨hu, ?_⟩
      rw [← supportedOf_iff] at hs
      rw [Bool.not_eq_true']
      exact Bool.eq_false_iff.mpr fun hco => hs hco
  have hchk : checkUnsupportedCalls data =
      (!((((undeclPairs data).map Prod.fst).dedup.filter
          fun x => !(supportedOf data x)).isEmpty),
        (((undeclPairs data).map Prod.fst).dedup.filter
          fun x => !(supportedOf data x)).map
          fun x => OutLine.unsupported ((unsupportedOf data x).getD "") x) := rfl
  refine ⟨?_, ?_, ?_, ?_⟩
  · rw [hchk]
    constructor
    · rintro ⟨fl, hmem⟩
      simp only [List.mem_map] at hmem
      obtain ⟨x, hx, hxe⟩ := hmem
      injection hxe with h1 h2
      subst h2
      exact (hmembad x).mp hx
    · intro hcond
      refine ⟨(unsupportedOf data n).getD "", ?_⟩
      simp only [List.mem_map]
      exact ⟨n, (hmembad n).mpr hcond, rfl⟩
  · rw [hchk]
    constructor
    · intro htrue
      rw [Bool.not_eq_true'] at htrue
      cases hbad : (((undeclPairs data).map Prod.fst).dedup.filter
          fun x => !(supportedOf data x)) with
      | nil =>
        rw [hbad] at htrue
        simp at htrue
      | cons mhd mtl =>
        refine ⟨mhd, (hmembad mhd).mp ?_⟩
        rw [hbad]
        exact List.mem_cons_self _ _
    · rintro ⟨m, hm⟩
      have hmem := (hmembad m).mpr hm
      rw [Bool.not_eq_true']
      cases hbad : (((undeclPairs data).map Prod.fst).dedup.filter
          fun x => !(supportedOf data x)) with
      | nil =>
        rw [hbad] at hmem
        cases hmem
      | cons mhd mtl => simp [hbad]
  · intro hfa
    have hbeq : (flagArch == "") = false := beq_eq_false_iff_ne.mpr hfa
    constructor <;> simp [mainTail, hbeq]
  · intro hf0 hchk1
    simp [mainTail, hf0, hchk1]

/-- C6: after the drain, each accumulated constant table is serialized exactly
once: the `constFiles` map has one entry per distinct definition-file name
that received an `AddArch` call, and the write-back loop emits exactly one
file-system action per table — a deletion of the previously persisted file
when the serialized form is empty (and nothing is written for it), and a write
of the serialized bytes otherwise (and no deletion for it). -/
theorem c6_serialize_exactly_once (os : String) (ser : List AddCall → List Nat)
    (calls : List AddCall) :
    ((constFilesOf calls).map Prod.fst).Nodup ∧
    (∀ k, k ∈ (constFilesOf calls).map Prod.fst ↔ k ∈ calls.map (·.file)) ∧
    (∀ p ∈ constFilesOf calls,
      ((writeBack os ser (constFilesOf calls)).filter
        (fun act => fsPath act == outname os p.1)).length = 1 ∧
      (ser p.2 = [] →
        FsAction.remove (outname os p.1) ∈ writeBack os ser (constFilesOf calls) ∧
        ∀ d, FsAction.write (outname os p.1) d ∉ writeBack os ser (constFilesOf calls)) ∧
      (ser p.2 ≠ [] →
        FsAction.write (outname os p.1) (ser p.2) ∈ writeBack os ser (constFilesOf calls) ∧
        FsAction.remove (outname os p.1) ∉ writeBack os ser (constFilesOf calls))) := by
  obtain ⟨hnd, hkeys⟩ := constFilesOf_keys calls
  refine ⟨hnd, hkeys, ?_⟩
  intro p hp
  have hwb : writeBack os ser (constFilesOf calls) =
      (constFilesOf calls).map fun q =>
        if (ser q.2).length = 0 then FsAction.remove (outname os q.1)
        else FsAction.write (outname os q.1) (ser q.2) := rfl
  have hone : (constFilesOf calls).filter (fun q => q.1 == p.1) = [p] :=
    filter_eq_singleton_of_nodup_map Prod.fst hnd hp
  refine ⟨?_, ?_, ?_⟩
  · rw [hwb, filter_map_comm]
    have hpred : ((constFilesOf calls).filter fun q =>
        fsPath (if (ser q.2).length = 0 then FsAction.remove (outname os q.1)
          else FsAction.write (outname os q.1) (ser q.2)) == outname os p.1) =
        (constFilesOf calls).filter (fun q => q.1 == p.1) := by
      apply List.filter_congr
      intro q _
      have hpath : fsPath (if (ser q.2).length = 0 then FsAction.remove (outname os q.1)
          else FsAction.write (outname os q.1) (ser q.2)) = outname os q.1 := by
        split <;> rfl
      rw [hpath]
      by_cases hq : q.1 = p.1
      · simp [hq]
      · have hno : outname os q.1 ≠ outname os p.1 := fun hco => hq (outname_inj hco)
        simp [hq, hno]
    rw [hpred, hone]
    rfl
  · intro hser
    constructor
    · rw [hwb]
      refine List.mem_map.mpr ⟨p, hp, ?_⟩
      simp [hser]
    · intro d hmem
      rw [hwb] at hmem
      obtain ⟨q, hq, hqe⟩ := List.mem_map.mp hmem
      by_cases hz : (ser q.2).length = 0
      · rw [if_pos hz] at hqe
        cases hqe
      · rw [if_neg hz] at hqe
        injection hqe with h1 h2
        have hqp : q = p := by
          have hq1 : q.1 = p.1 := outname_inj h1
          have : q ∈ (constFilesOf calls).filter (fun r => r.1 == p.1) :=
            List.mem_filter.mpr ⟨hq, by rw [beq_iff_eq]; exact hq1⟩
          rw [hone] at this
          simpa using this
        subst hqp
        rw [hser] at hz
        simp at hz
  · intro hser
    have hz : ¬((ser p.2).length = 0) := by
      intro h0
      exact hser (List.length_eq_zero.mp h0)
    constructor
    · rw [hwb]
      refine List.mem_map.mpr ⟨p, hp, ?_⟩
      rw [if_neg hz]
    · intro hmem
      rw [hwb] at hmem
      obtain ⟨q, hq, hqe⟩ := List.mem_map.mp hmem
      by_cases hz2 : (ser q.2).length = 0
      · rw [if_pos hz2] at hqe
        injection hqe with h1
        have hqp : q = p := by
          have hq1 : q.1 = p.1 := outname_inj h1
          have : q ∈ (constFilesOf calls).filter (fun r => r.1 == p.1) :=
            List.mem_filter.mpr ⟨hq, by rw [beq_iff_eq]; exact hq1⟩
          rw [hone] at this
          simpa using this
        subst hqp
        exact hz hz2
      · rw [if_neg hz2] at hqe
        cases hqe

/-- C8: in build mode every architecture job of `createArches` owns a freshly
created temporary build directory (one `TempDir` call each, so all pairwise
distinct given the operating-system guarantee — modelled as injectivity of the
temp-dir supply — that fresh temp dirs are distinct), and after the collector
has drained (the tail of `main` runs only on the drained state) exactly one
`RemoveAll` action per architecture's build directory is emitted, after all
table write-back actions; the write-back emits no `RemoveAll` at all. -/
theorem c8_build_dir_removed_once (env : CreateEnv) (os : String)
    (archArr files : List String) (l : List ArchCfg) (ext : Ext) (flagArch : String)
    (ser : List AddCall → List Nat) (s : St) (hb : env.flagBuild = true)
    (hinj : Function.Injective env.tempDir)
    (h : createArches env os archArr files = .ok l) :
    (∀ arch ∈ l, arch.build = true ∧ ∃ i, arch.buildDir = env.tempDir i) ∧
    (l.map (·.buildDir)).Nodup ∧
    (mainTail ⟨os, l, ext⟩ flagArch ser s).fsActions =
      writeBack os ser (constFilesOf s.calls) ++
        l.map (fun arch => FsAction.removeAll arch.buildDir) ∧
    (∀ arch ∈ l,
      ((mainTail ⟨os, l, ext⟩ flagArch ser s).fsActions.filter
        (fun act => act == FsAction.removeAll arch.buildDir)).length = 1) ∧
    (∀ act ∈ writeBack os ser (constFilesOf s.calls), ∀ d, act ≠ FsAction.removeAll d) := by
  obtain ⟨hmap, hbuild⟩ := createArchesGo_build hb archArr 0 files l h
  have hnodup : (l.map (·.buildDir)).Nodup := by
    rw [hmap]
    exact (List.nodup_range' _ _).map hinj
  have hfilterl : l.filter (·.build) = l :=
    List.filter_eq_self.mpr fun arch ha => hbuild arch ha
  have htail : (mainTail ⟨os, l, ext⟩ flagArch ser s).fsActions =
      writeBack os ser (constFilesOf s.calls) ++
        l.map (fun arch => FsAction.removeAll arch.buildDir) := by
    simp only [mainTail]
    rw [hfilterl]
  have hwbno : ∀ act ∈ writeBack os ser (constFilesOf s.calls),
      ∀ d, act ≠ FsAction.removeAll d := by
    intro act hmem d
    obtain ⟨q, _, hqe⟩ := List.mem_map.mp hmem
    intro hco
    rw [hco] at hqe
    by_cases hz : (ser q.2).length = 0
    · rw [if_pos hz] at hqe
      cases hqe
    · rw [if_neg hz] at hqe
      cases hqe
  refine ⟨?_, hnodup, htail, ?_, hwbno⟩
  · intro arch harch
    refine ⟨hbuild arch harch, ?_⟩
    have : arch.buildDir ∈ l.map (·.buildDir) := List.mem_map.mpr ⟨arch, harch, rfl⟩
    rw [hmap] at this
    obtain ⟨i, _, hie⟩ := List.mem_map.mp this
    exact ⟨i, hie.symm⟩
  · intro arch harch
    rw [htail, List.filter_append]
    have hwb0 : (writeBack os ser (constFilesOf s.calls)).filter
        (fun act => act == FsAction.removeAll arch.buildDir) = [] := by
      rw [List.filter_eq_nil_iff]
      intro act hact hco
      rw [beq_iff_eq] at hco
      exact hwbno act hact arch.buildDir hco
    rw [hwb0, List.nil_append, filter_map_comm]
    have hpred : (l.filter fun q =>
        (FsAction.removeAll q.buildDir == FsAction.removeAll arch.buildDir)) =
        l.filter (fun q => q.buildDir == arch.buildDir) := by
      apply List.filter_congr
      intro q _
      by_cases hq : q.buildDir = arch.buildDir
      · simp [hq]
      · simp [hq]
    rw [hpred, filter_eq_singleton_of_nodup_map (fun arch => arch.buildDir) hnodup harch]
    rfl

/-- C10: when an explicit definition-file list is supplied, `createArches`
uses that same (sorted) list for every requested architecture, ignoring the
discovered-file metadata entirely (the result does not depend on `allFiles`,
i.e. the `NoExtract` and `SupportsArch` filters are not applied); when no
explicit list is given, each architecture's list is the sorted filtered list
of all discovered definition files for that architecture. -/
theorem c10_explicit_list_unfiltered (env : CreateEnv) (os : String)
    (archArr files : List String) (l : List ArchCfg)
    (h : createArches env os archArr files = .ok l) :
    l.length = archArr.length ∧
    (files ≠ [] →
      (∀ arch ∈ l, arch.files = sortStrings files) ∧
      (∀ allFiles2, createArches { env with allFiles := allFiles2 } os archArr files
        = .ok l)) ∧
    (files = [] → ∀ k, k < l.length →
      (l.getD k dummyArch).files = sortStrings (archFilesFor env (archArr.getD k ""))) :=
  createArchesGo_files env os archArr 0 files l h

/-- A concrete oracle for a run in which the single architecture and its
single file both succeed. -/
def extOk : Ext where
  processArchO := fun _ =>
    .ok fun p => if p = "sys/windows/f.txt" then some ⟨["A"]⟩ else none
  processFileO := fun _ _ => (some [("A", 1)], some [], none)

/-- A one-architecture, one-file configuration that succeeds. -/
def cfgOk : Cfg where
  os := "windows"
  arches := [{ targetOS := "windows", targetArch := "amd64", sourceDir := "src",
               includeDirs := "", buildDir := "bd", build := false, files := ["f.txt"] }]
  ext := extOk

def w1 : St :=
  { initSt with archs := upd1 initSt.archs 0 { initSt.archs 0 with pc := .taken } }

def w2 : St :=
  { w1 with
    archs := upd1 w1.archs 0 { w1.archs 0 with pc := .errWritten, err := archErrP cfgOk 0 },
    tr := w1.tr ++ [.writeArchErr 0] }

def w3 : St :=
  { w2 with
    archs := upd1 w2.archs 0 { w2.archs 0 with
      pc := if (w2.archs 0).err = none then .fanout 0 else .failedDone,
      done := true },
    tr := w2.tr ++ [.signalArch 0] }

def w4 : St :=
  { w3 with
    archs := upd1 w3.archs 0 { w3.archs 0 with pc := .fanout (0 + 1) },
    files := upd2 w3.files 0 0 { w3.files 0 0 with pc := .queued, info := fileInfoP cfgOk 0 0 },
    tr := w3.tr ++ [.writeFileInfo 0 0, .enqueueFile 0 0] }

def w5 : St :=
  { w4 with files := upd2 w4.files 0 0 { w4.files 0 0 with pc := .taken } }

def w6 : St :=
  { w5 with
    files := upd2 w5.files 0 0 { w5.files 0 0 with
      pc := .written,
      res := processFile cfgOk.ext 0 cfgOk.os ⟨fileNameAt cfgOk 0 0, (w5.files 0 0).info⟩ },
    tr := w5.tr ++ [.writeFileRes 0 0] }

def w7 : St :=
  { w6 with
    files := upd2 w6.files 0 0 { w6.files 0 0 with pc := .closedDone, done := true },
    tr := w6.tr ++ [.signalFile 0 0] }

def w8 : St :=
  { w7 with
    cpc := .atFile 0 0,
    out := w7.out ++ [.generating cfgOk.os (archNameAt cfgOk 0)],
    tr := w7.tr ++ [.readArchErr 0] }

def w9 : St :=
  { w8 with
    cpc := .atFile 0 (0 + 1),
    calls := w8.calls ++ [⟨fileNameAt cfgOk 0 0, archNameAt cfgOk 0,
      (w8.files 0 0).res.1, (w8.files 0 0).res.2.1⟩],
    tr := w8.tr ++ [.readFileRes 0 0] }

def w10 : St := { w9 with cpc := .atArch (0 + 1) }

theorem reachw : Reach cfgOk w10 := by
  have h0 : Reach cfgOk initSt := Reach.init
  have h1 : Reach cfgOk w1 := Reach.step h0 (Step.dequeueArch 0 (by decide) (by decide))
  have h2 : Reach cfgOk w2 := Reach.step h1 (Step.writeArch 0 (by decide))
  have h3 : Reach cfgOk w3 := Reach.step h2 (Step.closeArch 0 (by decide))
  have h4 : Reach cfgOk w4 := Reach.step h3 (Step.fanout 0 0 (by decide) (by decide))
  have h5 : Reach cfgOk w5 := Reach.step h4 (Step.dequeueFile 0 0 (by decide))
  have h6 : Reach cfgOk w6 := Reach.step h5 (Step.writeFile 0 0 (by decide))
  have h7 : Reach cfgOk w7 := Reach.step h6 (Step.closeFile 0 0 (by decide))
  have h8 : Reach cfgOk w8 :=
    Reach.step h7 (Step.collectArchOk 0 (by decide) (by decide) (by decide) (by decide))
  have h9 : Reach cfgOk w9 :=
    Reach.step h8 (Step.collectFileOk 0 0 (by decide) (by decide) (by decide) (by decide))
  exact Reach.step h9 (Step.collectFilesDone 0 (by decide))

/-- A concrete oracle whose single architecture job fails its parse-and-prepare
phase. -/
def extBad : Ext where
  processArchO := fun _ => .error "parse failed"
  processFileO := fun _ _ => (none, none, none)

/-- A one-architecture, one-file configuration whose architecture job fails. -/
def cfgBad : Cfg where
  os := "windows"
  arches := [{ targetOS := "windows", targetArch := "amd64", sourceDir := "src",
               includeDirs := "", buildDir := "bd", build := false, files := ["f.txt"] }]
  ext := extBad

def v1 : St :=
  { initSt with archs := upd1 initSt.archs 0 { initSt.archs 0 with pc := .taken } }

def v2 : St :=
  { v1 with
    archs := upd1 v1.archs 0 { v1.archs 0 with pc := .errWritten, err := archErrP cfgBad 0 },
    tr := v1.tr ++ [.writeArchErr 0] }

def v3 : St :=
  { v2 with
    archs := upd1 v2.archs 0 { v2.archs 0 with
      pc := if (v2.archs 0).err = none then .fanout 0 else .failedDone,
      done := true },
    tr := v2.tr ++ [.signalArch 0] }

def v4 : St :=
  { v3 with
    cpc := .atArch (0 + 1), failed := true,
    out := v3.out ++ [.generating cfgBad.os (archNameAt cfgBad 0), .archError "parse failed"],
    tr := v3.tr ++ [.readArchErr 0] }

theorem reachv : Reach cfgBad v4 := by
  have h0 : Reach cfgBad initSt := Reach.init
  have h1 : Reach cfgBad v1 := Reach.step h0 (Step.dequeueArch 0 (by decide) (by decide))
  have h2 : Reach cfgBad v2 := Reach.step h1 (Step.writeArch 0 (by decide))
  have h3 : Reach cfgBad v3 := Reach.step h2 (Step.closeArch 0 (by decide))
  exact Reach.step h3
    (Step.collectArchErr 0 "parse failed" (by decide) (by decide) (by decide) (by decide))

theorem c1_publish_before_signal_witness :
    evOK [Ev.writeArchErr 0] (Ev.signalArch 0) :=
  (c1_publish_before_signal cfgOk w10 reachw).1 [Ev.writeArchErr 0] (Ev.signalArch 0)
    [Ev.writeFileInfo 0 0, Ev.enqueueFile 0 0, Ev.writeFileRes 0 0, Ev.signalFile 0 0,
      Ev.readArchErr 0, Ev.readFileRes 0 0] (by decide)

theorem c2_schedule_independent_witness : w10.calls = w10.calls :=
  (c2_schedule_independent cfgOk w10 w10 reachw reachw rfl rfl).1

theorem c4_no_fanout_on_error_witness :
    (v4.files 0 0).pc = FPC.notQueued ∧ (v4.files 0 0).res = (none, none, none) ∧
      Ev.enqueueFile 0 0 ∉ v4.tr ∧ Ev.writeFileRes 0 0 ∉ v4.tr :=
  (c4_no_fanout_on_error cfgBad v4 reachv).2 0 0 "parse failed" (by decide)

theorem c5_partial_failure_collection_witness : v4.failed = anyJobErr cfgBad :=
  (c5_partial_failure_collection cfgBad v4 "" (fun _ => []) reachv rfl).1

theorem c9_check_skipped_on_any_error_witness :
    v4.failed = true ∧ (mainTail cfgBad "" (fun _ => []) v4).out = v4.out ∧
      (mainTail cfgBad "" (fun _ => []) v4).exitFailed = true :=
  (c9_check_skipped_on_any_error cfgBad v4 (fun _ => []) reachv rfl).1 "" (by decide)

theorem c3_unsupported_on_all_arches_witness :
    (mainTail cfgOk "amd64" (fun _ => []) w10).exitFailed = w10.failed ∧
      (mainTail cfgOk "amd64" (fun _ => []) w10).out = w10.out :=
  (c3_unsupported_on_all_arches [[⟨"g.txt", [], ["Z"]⟩]] "Z" cfgOk "amd64"
    (fun _ => []) w10).2.2.1 (by decide)

/-- A concrete collector call list for the write-back witness. -/
def callsW : List AddCall := [⟨"f.txt", "amd64", some [("A", 1)], some []⟩]

theorem c6_serialize_exactly_once_witness :
    ((writeBack "windows" (fun _ => []) (constFilesOf callsW)).filter
      (fun act => fsPath act == outname "windows" "f.txt")).length = 1 :=
  ((c6_serialize_exactly_once "windows" (fun _ => []) callsW).2.2
    ("f.txt", callsW) (by decide)).1

theorem c7_processFile_backend_iff_witness :
    processFile extOk 0 "windows" ⟨"f.txt", none⟩ =
      (none, none,
        some ("const info for input file " ++ ("sys/" ++ "windows" ++ "/" ++ "f.txt") ++
          " is missing")) ∧
    processFile extOk 0 "windows" ⟨"f.txt", some ⟨[]⟩⟩ = (none, none, none) ∧
    processFile extOk 0 "windows" ⟨"f.txt", some ⟨["A"]⟩⟩ =
      extOk.processFileO 0 ⟨["A"]⟩ :=
  c7_processFile_backend_iff extOk 0 "windows" "f.txt" ⟨[]⟩ ⟨["A"]⟩ rfl (by decide)

/-- A build-mode environment with a fresh temp-dir supply. -/
def envW : CreateEnv where
  flagBuild := true
  flagBuildDir := ""
  flagSourceDir := "src"
  flagIncludes := ""
  allFiles := []
  knownArch := fun _ => true
  tempDir := fun i => String.mk ('t' :: List.replicate i 'x')

/-- The arches that `createArches` produces from `envW` for two architectures
and no files. -/
def lW : List ArchCfg :=
  [⟨"windows", "amd64", "src", "", "t", true, []⟩,
   ⟨"windows", "arm64", "src", "", "tx", true, []⟩]

theorem c8_build_dir_removed_once_witness : (lW.map (·.buildDir)).Nodup :=
  (c8_build_dir_removed_once envW "windows" ["amd64", "arm64"] [] lW extOk ""
    (fun _ => []) initSt rfl
    (by
      intro i j hij
      have h2 : ('t' :: List.replicate i 'x') = ('t' :: List.replicate j 'x') := by
        simpa [envW] using congrArg String.data hij
      have h3 := congrArg List.length h2
      simp at h3
      exact h3)
    (by rfl)).2.1

/-- A no-build environment for the explicit-file-list witness. -/
def envP : CreateEnv where
  flagBuild := false
  flagBuildDir := ""
  flagSourceDir := "src"
  flagIncludes := ""
  allFiles := [("x.txt", ⟨true, fun _ => true⟩)]
  knownArch := fun _ => true
  tempDir := fun _ => ""

/-- The arch that `createArches` produces from `envP` for one architecture and
the explicit file list `["b.txt", "a.txt"]`. -/
def lP : List ArchCfg := [⟨"windows", "amd64", "src", "", "src", false, ["a.txt", "b.txt"]⟩]

theorem c10_explicit_list_unfiltered_witness :
    (⟨"windows", "amd64", "src", "", "src", false, ["a.txt", "b.txt"]⟩ : ArchCfg).files =
      sortStrings ["b.txt", "a.txt"] :=
  ((c10_explicit_list_unfiltered envP "windows" ["amd64"] ["b.txt", "a.txt"] lP
    (by rfl)).2.1 (by decide)).1 _ (by decide)

end SyzExtract
